import Mathlib

/-!
Verification of the core algorithms of the Transfer plugin.

This file gives a shallow embedding, in Lean 4, of the algorithmic core of the
plugin: the batch/cancellation runner (`utils/batcher.ts`), the layout spacing
heuristic (`utils/layout.ts`), the staging-page resolution
(`utils/collector.ts`), the progress tracker (`utils/progress.ts`), the
validator (`utils/validator.ts`), the node-tree traversal (`utils/traversal.ts`)
and the dependency analyzer (`utils/analyzer.ts`).  Each definition mirrors the
corresponding TypeScript function; host side effects that the algorithms do not
observe (progress callbacks, the zero-duration yield between batches, wall-clock
reads) are omitted, and the possibly-unbounded recursions of the source are made
total with an explicit fuel argument that strictly decreases on every call, so
that a run of the source that terminates is reproduced exactly by any
sufficiently large fuel.

The theorems then settle the frozen specification claims about these functions.
-/

namespace Transfer

/-! ## Batch / cancellation runner (`utils/batcher.ts`, `processBatch`)

`processBatch(items, batchSize, processor, onProgress?, token?)` iterates
`for (let i = 0; i < total; i += batchSize)`; at the top of each iteration it
checks `token.isCancelled` and throws `new Error('Operation cancelled')` when
set; otherwise it slices `items.slice(i, min(i + batchSize, total))`, runs the
processor on each element of the slice (with its absolute index) pushing the
results, reports progress and yields.  We model the token as the function
`cancelledAt : Nat → Bool` giving the value the runner observes at its k-th
check (the only points where the code reads the token), and we return, besides
the `Except` outcome, the list of items actually given to the processor, in
order.  `rem` stands for `items.drop i`, so the loop guard `i < total` is
`rem ≠ []`. -/

/-- Applies `f` to every element of the list, pairing it with its absolute
index starting at `i` (the runner invokes `processor(batch[j], i + j)`). -/
def mapIdxFrom (f : α → Nat → β) : List α → Nat → List β
  | [], _ => []
  | a :: as, i => f a i :: mapIdxFrom f as (i + 1)

/-- One run of the `for` loop of `processBatch`, starting at absolute index
`i` (so the remaining items are `rem`) and at cancellation check number `k`.
Returns `none` when the fuel runs out, i.e. when the source loop would still
be running after `fuel` iterations. -/
def runBatches (f : α → Nat → β) (cancelledAt : Nat → Bool) (batchSize : Nat) :
    Nat → List α → Nat → Nat → Option (List α × Except String (List β))
  | 0, _, _, _ => none
  | _fuel + 1, [], _, _ => some ([], Except.ok [])
  | fuel + 1, a :: rem, i, k =>
    if cancelledAt k then some ([], Except.error "Operation cancelled")
    else
      let batch := (a :: rem).take batchSize
      let rs := mapIdxFrom f batch i
      match runBatches f cancelledAt batchSize fuel ((a :: rem).drop batchSize)
          (i + batchSize) (k + 1) with
      | none => none
      | some (inv, Except.error e) => some (batch ++ inv, Except.error e)
      | some (inv, Except.ok rest) => some (batch ++ inv, Except.ok (rs ++ rest))

/-- `processBatch` itself: run the loop from index 0 and check 0.  The first
component of the result is the list of items the processor was invoked on, in
invocation order; the second is the value `processBatch` settles with. -/
def processBatch (f : α → Nat → β) (cancelledAt : Nat → Bool) (items : List α)
    (batchSize : Nat) (fuel : Nat) : Option (List α × Except String (List β)) :=
  runBatches f cancelledAt batchSize fuel items 0 0

/-- The absence of cancellation: a token that is never set. -/
def noCancel : Nat → Bool := fun _ => false

theorem runBatches_cancel (f : α → Nat → β) (cancelledAt : Nat → Bool)
    (batchSize : Nat) :
    ∀ (N fuel : Nat) (rem : List α) (i k : Nat),
      (∀ j, j < N → cancelledAt (k + j) = false) →
      cancelledAt (k + N) = true →
      N * batchSize < rem.length → N < fuel →
      runBatches f cancelledAt batchSize fuel rem i k =
        some (rem.take (N * batchSize), Except.error "Operation cancelled") := by
  intro N
  induction N with
  | zero =>
    intro fuel rem i k _hlow hcan hlen hfuel
    obtain ⟨fuel, rfl⟩ : ∃ m, fuel = m + 1 := ⟨fuel - 1, by omega⟩
    obtain ⟨a, rem, rfl⟩ : ∃ b t, rem = b :: t := by
      cases rem with
      | nil => simp at hlen
      | cons b t => exact ⟨b, t, rfl⟩
    simp only [runBatches]
    rw [show k + 0 = k from rfl] at hcan
    simp [hcan]
  | succ N ih =>
    intro fuel rem i k hlow hcan hlen hfuel
    obtain ⟨fuel, rfl⟩ : ∃ m, fuel = m + 1 := ⟨fuel - 1, by omega⟩
    obtain ⟨a, rem, rfl⟩ : ∃ b t, rem = b :: t := by
      cases rem with
      | nil => simp at hlen
      | cons b t => exact ⟨b, t, rfl⟩
    have hk0 : cancelledAt k = false := by
      have := hlow 0 (Nat.succ_pos N)
      simpa using this
    simp only [runBatches, hk0, Bool.false_eq_true, if_false]
    have hmul : (N + 1) * batchSize = N * batchSize + batchSize := by ring
    have hrec := ih fuel ((a :: rem).drop batchSize) (i + batchSize) (k + 1)
      (fun j hj => by
        have := hlow (j + 1) (Nat.succ_lt_succ hj)
        simpa [Nat.add_assoc, Nat.add_comm 1 j] using this)
      (by
        have : k + 1 + N = k + (N + 1) := by omega
        rw [this]; exact hcan)
      (by
        have hlen2 : (a :: rem).length = rem.length + 1 := rfl
        have hdrop : ((a :: rem).drop batchSize).length
            = (a :: rem).length - batchSize := by
          simp [List.length_drop]
        omega)
      (by omega)
    rw [hrec]
    have htake : (a :: rem).take batchSize
          ++ ((a :: rem).drop batchSize).take (N * batchSize)
        = (a :: rem).take ((N + 1) * batchSize) := by
      rw [← List.take_add]
      congr 1
      ring
    simp [htake]

/-- Claim C9: if the token is observed cancelled for the first time at the
check preceding batch `N` (and batch `N` exists), `processBatch` fails with
the distinguished "Operation cancelled" error and the processor has been
invoked exactly on the items of batches `0..N-1`, i.e. on
`items.take (N * batchSize)`, in input order, and on no later item. -/
theorem processBatch_cancelled_at_batch (f : α → Nat → β)
    (cancelledAt : Nat → Bool) (items : List α) (batchSize N fuel : Nat)
    (hlow : ∀ j, j < N → cancelledAt j = false)
    (hN : cancelledAt N = true)
    (hlen : N * batchSize < items.length)
    (hfuel : N < fuel) :
    processBatch f cancelledAt items batchSize fuel =
      some (items.take (N * batchSize), Except.error "Operation cancelled") := by
  unfold processBatch
  exact runBatches_cancel f cancelledAt batchSize N fuel items 0 0
    (fun j hj => by simpa using hlow j hj) (by simpa using hN) hlen hfuel

theorem mapIdxFrom_append (f : α → Nat → β) (l₁ l₂ : List α) (i : Nat) :
    mapIdxFrom f (l₁ ++ l₂) i
      = mapIdxFrom f l₁ i ++ mapIdxFrom f l₂ (i + l₁.length) := by
  induction l₁ generalizing i with
  | nil => simp [mapIdxFrom]
  | cons a as ih =>
    simp only [List.cons_append, List.append_eq, mapIdxFrom, List.length_cons, ih]
    have h : i + 1 + as.length = i + (as.length + 1) := by omega
    rw [h]

theorem mapIdxFrom_take_drop (f : α → Nat → β) (l : List α) (n i : Nat) :
    mapIdxFrom f l i
      = mapIdxFrom f (l.take n) i
        ++ mapIdxFrom f (l.drop n) (i + (l.take n).length) := by
  conv_lhs => rw [← List.take_append_drop n l]
  rw [mapIdxFrom_append]

theorem runBatches_complete (f : α → Nat → β) (batchSize : Nat)
    (hbs : 1 ≤ batchSize) :
    ∀ (fuel : Nat) (rem : List α) (i k : Nat), rem.length < fuel →
      runBatches f noCancel batchSize fuel rem i k =
        some (rem, Except.ok (mapIdxFrom f rem i)) := by
  intro fuel
  induction fuel with
  | zero => intro rem i k h; omega
  | succ fuel ih =>
    intro rem i k hlen
    cases rem with
    | nil => simp [runBatches, mapIdxFrom]
    | cons a rem =>
      simp only [runBatches, noCancel, Bool.false_eq_true, if_false]
      have hdlen : ((a :: rem).drop batchSize).length < fuel := by
        rw [List.length_drop]
        simp only [List.length_cons] at hlen ⊢
        omega
      rw [ih ((a :: rem).drop batchSize) (i + batchSize) (k + 1) hdlen]
      have hres : mapIdxFrom f ((a :: rem).take batchSize) i
            ++ mapIdxFrom f ((a :: rem).drop batchSize) (i + batchSize)
          = mapIdxFrom f (a :: rem) i := by
        by_cases hle : batchSize ≤ (a :: rem).length
        · have hlen3 : ((a :: rem).take batchSize).length = batchSize := by
            rw [List.length_take]
            simp only [List.length_cons] at hle ⊢
            omega
          rw [mapIdxFrom_take_drop f (a :: rem) batchSize i, hlen3]
        · have hdnil : (a :: rem).drop batchSize = [] :=
            List.drop_eq_nil_of_le (by omega)
          have htall : (a :: rem).take batchSize = a :: rem :=
            List.take_of_length_le (by omega)
          simp [hdnil, htall, mapIdxFrom]
      dsimp only
      rw [List.take_append_drop, hres]

theorem runBatches_zero_batchSize_diverges (f : α → Nat → β) :
    ∀ (fuel : Nat) (a : α) (rem : List α) (i k : Nat),
      runBatches f noCancel 0 fuel (a :: rem) i k = none := by
  intro fuel
  induction fuel with
  | zero => intro a rem i k; rfl
  | succ fuel ih =>
    intro a rem i k
    simp only [runBatches, noCancel, Bool.false_eq_true, if_false]
    rw [show (a :: rem).drop 0 = a :: rem from rfl, ih a rem]

/-- Claim C10: without cancellation, `processBatch` terminates on every finite
list as soon as `batchSize ≥ 1` (any fuel beyond the list length reaches the
result), invoking the processor exactly once per item, in input order, and
returning the results in that order; and `batchSize ≥ 1` is necessary: with
`batchSize = 0` and a non-empty list the loop index never advances and no
amount of fuel produces a result. -/
theorem processBatch_terminates_iff_positive_batch (f : α → Nat → β)
    (items : List α) (batchSize : Nat) :
    (∀ fuel, 1 ≤ batchSize → items.length < fuel →
      processBatch f noCancel items batchSize fuel =
        some (items, Except.ok (mapIdxFrom f items 0))) ∧
    (∀ fuel, batchSize = 0 → items ≠ [] →
      processBatch f noCancel items batchSize fuel = none) := by
  constructor
  · intro fuel hbs hfuel
    unfold processBatch
    exact runBatches_complete f batchSize hbs fuel items 0 0 hfuel
  · intro fuel hbs hne
    unfold processBatch
    match items, hne with
    | a :: rem, _ =>
      rw [hbs]
      exact runBatches_zero_batchSize_diverges f fuel a rem 0 0

/-- Witness for C9 at a concrete run: five items, batches of two, the token
observed set at check 1, so exactly the first batch `[10, 20]` is processed. -/
theorem processBatch_cancelled_at_batch_witness :
    processBatch (fun x i => x + i) (fun k => decide (1 ≤ k)) [10, 20, 30, 40, 50] 2 5 =
      some ([10, 20], Except.error "Operation cancelled") := by
  have h := processBatch_cancelled_at_batch (fun x i => x + i)
    (fun k => decide (1 ≤ k)) [10, 20, 30, 40, 50] 2 1 5
    (fun j hj => by
      have hj0 : j = 0 := by omega
      rw [hj0]; rfl)
    (by rfl) (by decide) (by decide)
  simpa using h

/-- Witness for C10 at concrete runs: with `batchSize = 2` the run over
`[1, 2, 3]` completes with one invocation per item in order, and with
`batchSize = 0` the run over `[1]` never completes. -/
theorem processBatch_terminates_iff_positive_batch_witness :
    processBatch (fun x i => x * 10 + i) noCancel [1, 2, 3] 2 4 =
        some ([1, 2, 3], Except.ok [10, 21, 32]) ∧
      processBatch (fun x i => x * 10 + i) noCancel [1] 0 7 = none := by
  constructor
  · have h := (processBatch_terminates_iff_positive_batch
      (fun x i => x * 10 + i) [1, 2, 3] 2).1 4 (by decide) (by decide)
    simpa [mapIdxFrom] using h
  · exact (processBatch_terminates_iff_positive_batch
      (fun x i => x * 10 + i) [1] 0).2 7 rfl (by decide)

/-! ## Layout spacing heuristic (`utils/layout.ts`, `calculateOptimalSpacing`)

```ts
export function calculateOptimalSpacing(componentCount, defaultSpacing) {
  if (componentCount > 50) return defaultSpacing * 1.5;
  else if (componentCount > 100) return defaultSpacing * 2;
  return defaultSpacing;
}
```

Spacing values are modelled as rationals; the multiplications by 1.5 and 2 are
exact both in IEEE doubles for these operands and in `ℚ`. -/

/-- The spacing heuristic, branch for branch as in the source (the `> 50` test
comes first, so it captures every count above 50). -/
def calculateOptimalSpacing (componentCount : Nat) (defaultSpacing : ℚ) : ℚ :=
  if componentCount > 50 then defaultSpacing * (3 / 2)
  else if componentCount > 100 then defaultSpacing * 2
  else defaultSpacing

/-- Claim C3 is wrong about the code and the code is wrong: because the
`componentCount > 50` branch is tested first, the `componentCount > 100`
branch of `calculateOptimalSpacing` is unreachable, and a count of `150`
yields `1.5 ×` the base spacing (300 for base 200) instead of the claimed
`2 ×` (400).  The repository's own test expects
`calculateOptimalSpacing(150, 200) > calculateOptimalSpacing(60, 200)`, which
the code violates since both sides are 300. -/
theorem calculateOptimalSpacing_shadowed_double_branch :
    calculateOptimalSpacing 150 200 = 300 ∧
      calculateOptimalSpacing 150 200 ≠ 200 * 2 ∧
      calculateOptimalSpacing 150 200 = calculateOptimalSpacing 60 200 ∧
      calculateOptimalSpacing 30 200 = 200 := by
  refine ⟨by norm_num [calculateOptimalSpacing], ?_, ?_, ?_⟩
  · norm_num [calculateOptimalSpacing]
  · norm_num [calculateOptimalSpacing]
  · norm_num [calculateOptimalSpacing]

/-! ## Staging-page resolution (`utils/collector.ts`, `findOrCreateTransferPage`)

The function looks for an existing page named `'Transfer'` among
`figma.root.children`.  If one exists it dispatches on
`settings.transferPageBehavior`: `replace` clears and reuses it, `append`
reuses it as-is, `timestamp` creates a new page named
`` `Transfer ${timestamp}` `` where `timestamp` is the date part of
`new Date().toISOString()`, and `ask` falls through.  In every remaining case
(no existing page, or behavior `ask`) it creates a new page named
`'Transfer'`.  The document's page names and the clock's date string are the
two external inputs. -/

inductive TransferPageBehavior where
  | ask
  | append
  | replace
  | timestamp
deriving DecidableEq

/-- Outcome of staging-page resolution: either the pre-existing page named
`'Transfer'` (with the flag telling whether its children were removed first),
or a freshly created page with the given name. -/
inductive PageResolution where
  | existing (name : String) (cleared : Bool)
  | created (name : String)
deriving DecidableEq

/-- Whether the resolution returned a pre-existing page. -/
def PageResolution.isExisting : PageResolution → Bool
  | .existing _ _ => true
  | .created _ => false

/-- The page name carried by the resolution. -/
def PageResolution.name : PageResolution → String
  | .existing n _ => n
  | .created n => n

/-- `findOrCreateTransferPage`, with `pages` the names of the document's
pages and `dateStr` the date part of the current ISO timestamp. -/
def findOrCreateTransferPage (pages : List String)
    (behavior : TransferPageBehavior) (dateStr : String) : PageResolution :=
  if "Transfer" ∈ pages then
    match behavior with
    | .replace => .existing "Transfer" true
    | .append => .existing "Transfer" false
    | .timestamp => .created ("Transfer " ++ dateStr)
    | .ask => .created "Transfer"
  else .created "Transfer"

/-- Counterexample to claim C4: in a document with no page named
`'Transfer'`, the `timestamp` behavior creates a page named plainly
`'Transfer'`, with no date suffix, contradicting the claim that the created
page's name always carries a date suffix. -/
theorem findOrCreateTransferPage_timestamp_no_suffix_counterexample :
    findOrCreateTransferPage [] .timestamp "2026-10-11" =
        PageResolution.created "Transfer" ∧
      PageResolution.name (findOrCreateTransferPage [] .timestamp "2026-10-11")
        ≠ "Transfer " ++ "2026-10-11" := by
  constructor
  · rfl
  · intro h
    simp [findOrCreateTransferPage, PageResolution.name] at h

/-- Claim C4, amended: with behavior `timestamp`, staging-page resolution
never returns a pre-existing page; the fresh page's name carries the date
suffix exactly when a page named `'Transfer'` already exists, and is plain
`'Transfer'` otherwise. -/
theorem findOrCreateTransferPage_timestamp_always_fresh (pages : List String)
    (dateStr : String) :
    (findOrCreateTransferPage pages .timestamp dateStr).isExisting = false ∧
      ("Transfer" ∈ pages →
        findOrCreateTransferPage pages .timestamp dateStr =
          PageResolution.created ("Transfer " ++ dateStr)) ∧
      ("Transfer" ∉ pages →
        findOrCreateTransferPage pages .timestamp dateStr =
          PageResolution.created "Transfer") := by
  refine ⟨?_, ?_, ?_⟩
  · unfold findOrCreateTransferPage
    by_cases h : "Transfer" ∈ pages <;> simp [h, PageResolution.isExisting]
  · intro h
    simp [findOrCreateTransferPage, h]
  · intro h
    simp [findOrCreateTransferPage, h]

/-- Witness for the amended C4 at concrete inputs: a document that already
has a `'Transfer'` page, and one that does not. -/
theorem findOrCreateTransferPage_timestamp_always_fresh_witness :
    (findOrCreateTransferPage ["Cover", "Transfer"] .timestamp "2026-01-15").isExisting
        = false ∧
      findOrCreateTransferPage ["Cover", "Transfer"] .timestamp "2026-01-15" =
        PageResolution.created ("Transfer " ++ "2026-01-15") ∧
      findOrCreateTransferPage ["Cover"] .timestamp "2026-01-15" =
        PageResolution.created "Transfer" := by
  refine ⟨(findOrCreateTransferPage_timestamp_always_fresh
      ["Cover", "Transfer"] "2026-01-15").1,
    (findOrCreateTransferPage_timestamp_always_fresh
      ["Cover", "Transfer"] "2026-01-15").2.1 (by decide),
    (findOrCreateTransferPage_timestamp_always_fresh
      ["Cover"] "2026-01-15").2.2 (by decide)⟩

/-! ## Progress tracker (`utils/progress.ts`, `ProgressTracker`)

The tracker holds `phase`, `processed`, `total` and `currentItem`;
`start(total, phase)` resets `processed` to 0, `updateProgress(processed,
currentItem)` overwrites the counter, `increment(currentItem)` adds one, and
`getProgress()` reports
`percentage = total > 0 ? Math.round((processed / total) * 100) : 0`.
The wall-clock fields (`startTime`, `estimatedTimeRemaining`) are not
modelled.  JavaScript's `Math.round(x)` is `⌊x + 1/2⌋`. -/

inductive Phase where
  | analyzing
  | collecting
  | organizing
  | finalizing
deriving DecidableEq

structure TrackerState where
  phase : Phase
  processed : Nat
  total : Nat
  currentItem : String
deriving DecidableEq

/-- `ProgressTracker.start(total, phase)`. -/
def trackerStart (total : Nat) (phase : Phase) : TrackerState :=
  { phase := phase, processed := 0, total := total, currentItem := "" }

/-- The `increment` / `updateProgress` calls a caller can make between phase
changes. -/
inductive TrackerOp where
  | increment (currentItem : String)
  | updateProgress (processed : Nat) (currentItem : String)
deriving DecidableEq

/-- Applies one tracker call. -/
def applyOp (s : TrackerState) : TrackerOp → TrackerState
  | .increment item => { s with processed := s.processed + 1, currentItem := item }
  | .updateProgress p item => { s with processed := p, currentItem := item }

/-- The sequence of states a run of calls passes through, starting from `s`
(included). -/
def trackerTrace (s : TrackerState) : List TrackerOp → List TrackerState
  | [] => [s]
  | op :: ops => s :: trackerTrace (applyOp s op) ops

/-- JavaScript's `Math.round`. -/
def jsRound (x : ℚ) : ℤ := ⌊x + 1 / 2⌋

/-- The `percentage` field computed by `ProgressTracker.getProgress()`. -/
def getPercentage (s : TrackerState) : ℤ :=
  if s.total > 0 then jsRound ((s.processed : ℚ) / (s.total : ℚ) * 100) else 0

theorem getPercentage_eq_div (s : TrackerState) (h : 0 < s.total) :
    getPercentage s = ((200 * s.processed + s.total) / (2 * s.total) : ℕ) := by
  unfold getPercentage jsRound
  rw [if_pos h]
  have ht : (s.total : ℚ) ≠ 0 := by exact_mod_cast Nat.pos_iff_ne_zero.mp h
  have hx : (s.processed : ℚ) / (s.total : ℚ) * 100 + 1 / 2
      = ((200 * s.processed + s.total : ℕ) : ℚ) / ((2 * s.total : ℕ) : ℚ) := by
    push_cast
    field_simp
    ring
  rw [hx]
  have hfloor := Rat.floor_natCast_div_natCast
    (200 * s.processed + s.total) (2 * s.total)
  rw [hfloor]
  exact_mod_cast rfl

theorem getPercentage_mono (s t : TrackerState) (htot : s.total = t.total)
    (hp : s.processed ≤ t.processed) : getPercentage s ≤ getPercentage t := by
  rcases Nat.eq_zero_or_pos s.total with h0 | hpos
  · unfold getPercentage
    rw [h0] at htot
    simp [h0, ← htot]
  · rw [getPercentage_eq_div s hpos, getPercentage_eq_div t (htot ▸ hpos), ← htot]
    have : (200 * s.processed + s.total) / (2 * s.total)
        ≤ (200 * t.processed + s.total) / (2 * s.total) :=
      Nat.div_le_div_right (by omega)
    exact_mod_cast this

theorem getPercentage_le_100 (s : TrackerState) (h : s.processed ≤ s.total) :
    getPercentage s ≤ 100 := by
  rcases Nat.eq_zero_or_pos s.total with h0 | hpos
  · unfold getPercentage
    simp [h0]
  · rw [getPercentage_eq_div s hpos]
    have hlt : (200 * s.processed + s.total) / (2 * s.total) < 101 := by
      rw [Nat.div_lt_iff_lt_mul (by omega)]
      omega
    exact_mod_cast Nat.lt_succ_iff.mp hlt

theorem getPercentage_nonneg (s : TrackerState) : 0 ≤ getPercentage s := by
  rcases Nat.eq_zero_or_pos s.total with h0 | hpos
  · unfold getPercentage
    simp [h0]
  · rw [getPercentage_eq_div s hpos]
    exact_mod_cast Nat.zero_le _

theorem trackerTrace_total (total : Nat) :
    ∀ (ops : List TrackerOp) (s : TrackerState), s.total = total →
      ∀ t ∈ trackerTrace s ops, t.total = total := by
  intro ops
  induction ops with
  | nil =>
    intro s hs t ht
    simp only [trackerTrace, List.mem_singleton] at ht
    rw [ht]; exact hs
  | cons op ops ih =>
    intro s hs t ht
    simp only [trackerTrace, List.mem_cons] at ht
    rcases ht with rfl | ht
    · exact hs
    · exact ih (applyOp s op) (by cases op <;> simp [applyOp, hs]) t ht

/-- Counterexample to claim C5: starting with `start(1)`, two `increment`
calls form a sequence with non-decreasing processed values (0, 1, 2) whose
final reported percentage is 200, outside the claimed bound of 100 — the
tracker never clamps `processed` to `total`. -/
theorem getPercentage_exceeds_100_counterexample :
    List.Chain' (fun a b => a.processed ≤ b.processed)
        (trackerTrace (trackerStart 1 .collecting)
          [.increment "", .increment ""]) ∧
      getPercentage (applyOp (applyOp (trackerStart 1 .collecting)
          (.increment "")) (.increment "")) = 200 ∧
      ¬ getPercentage (applyOp (applyOp (trackerStart 1 .collecting)
          (.increment "")) (.increment "")) ≤ 100 := by
  refine ⟨?_, ?_, ?_⟩
  · simp [trackerTrace, applyOp, trackerStart]
  · norm_num [getPercentage, jsRound, applyOp, trackerStart]
  · norm_num [getPercentage, jsRound, applyOp, trackerStart]

/-- Claim C5, amended: after `start(total, phase)`, for every sequence of
`increment`/`updateProgress` calls with non-decreasing processed values *that
stay within `total`*, every reported percentage is
`Math.round(processed / total * 100)` — which as long as `processed ≤ total`
lies in `[0, 100]` — the percentages are non-decreasing along the run, and
every percentage is exactly 0 when `total = 0`.  (Without the
`processed ≤ total` bound the percentage exceeds 100, see the
counterexample.) -/
theorem tracker_percentage_monotone_bounded (total : Nat) (phase : Phase)
    (ops : List TrackerOp)
    (hmono : List.Chain' (fun a b => a.processed ≤ b.processed)
      (trackerTrace (trackerStart total phase) ops))
    (hbound : ∀ s ∈ trackerTrace (trackerStart total phase) ops,
      s.processed ≤ s.total) :
    (∀ s ∈ trackerTrace (trackerStart total phase) ops, 0 < total →
        getPercentage s = ((200 * s.processed + total) / (2 * total) : ℕ)) ∧
      List.Chain' (fun a b => getPercentage a ≤ getPercentage b)
        (trackerTrace (trackerStart total phase) ops) ∧
      (∀ s ∈ trackerTrace (trackerStart total phase) ops,
        0 ≤ getPercentage s ∧ getPercentage s ≤ 100) ∧
      (total = 0 → ∀ s ∈ trackerTrace (trackerStart total phase) ops,
        getPercentage s = 0) := by
  have htot : ∀ s ∈ trackerTrace (trackerStart total phase) ops, s.total = total :=
    trackerTrace_total total ops (trackerStart total phase) rfl
  refine ⟨?_, ?_, ?_, ?_⟩
  · intro s hs hpos
    rw [getPercentage_eq_div s (by rw [htot s hs]; exact hpos), htot s hs]
  · rw [List.chain'_iff_get] at hmono ⊢
    intro n hn
    have h1 := (trackerTrace (trackerStart total phase) ops).get_mem
      n (by omega)
    have h2 := (trackerTrace (trackerStart total phase) ops).get_mem
      (n + 1) (by omega)
    exact getPercentage_mono _ _
      (by rw [htot _ h1, htot _ h2]) (hmono n hn)
  · intro s hs
    exact ⟨getPercentage_nonneg s, getPercentage_le_100 s (hbound s hs)⟩
  · intro h0 s hs
    unfold getPercentage
    rw [htot s hs, h0]
    simp

/-- Witness for the amended C5 at a concrete run: `start(4)` followed by
`increment`, `updateProgress(2)`, `increment`. -/
theorem tracker_percentage_monotone_bounded_witness :
    List.Chain' (fun a b => getPercentage a ≤ getPercentage b)
        (trackerTrace (trackerStart 4 .collecting)
          [.increment "a", .updateProgress 2 "b", .increment "c"]) ∧
      getPercentage (applyOp (trackerStart 4 .collecting) (.increment "a")) = 25 := by
  constructor
  · exact (tracker_percentage_monotone_bounded 4 .collecting
      [.increment "a", .updateProgress 2 "b", .increment "c"]
      (by simp [trackerTrace, applyOp, trackerStart])
      (by
        intro s hs
        simp only [trackerTrace, applyOp, trackerStart, List.mem_cons,
          List.mem_singleton, List.not_mem_nil] at hs
        rcases hs with rfl | rfl | rfl | rfl | h
        · decide
        · decide
        · decide
        · decide
        · cases h)).2.1
  · norm_num [getPercentage, jsRound, applyOp, trackerStart]

/-! ## Scene graph model

The analyzer reads the host scene graph through node objects.  We model a
document as its root id (`figma.root.id`) together with a store of node
records addressable by id (`figma.getNodeById`); object references of the
host API (`children`, `parent`, `mainComponent`) become ids resolved through
the store. -/

inductive NodeType where
  | COMPONENT
  | COMPONENT_SET
  | INSTANCE
  | FRAME
  | PAGE
  | DOCUMENT
  | TEXT
deriving DecidableEq

/-- A variant-property definition of a component set
(`componentPropertyDefinitions`): its key, its `type` tag and its
`defaultValue`. -/
structure PropDef where
  key : String
  ptype : String
  defaultValue : String
deriving DecidableEq

/-- A scene node snapshot. -/
structure SNode where
  id : String
  name : String
  ntype : NodeType
  key : String
  visible : Bool
  locked : Bool
  description : String
  children : List String
  parent : Option String
  mainComponent : Option String
  propertyDefs : List PropDef
deriving DecidableEq

/-- A document: `figma.root.id` plus the node store. -/
structure Doc where
  rootId : String
  nodes : List SNode
deriving DecidableEq

/-- `figma.getNodeById`. -/
def Doc.getNodeById (d : Doc) (id : String) : Option SNode :=
  d.nodes.find? (fun n => n.id == id)

/-- Whether the node kind carries a `children` property (the `'children' in
node` type guard of the source). -/
def nodeHasChildren : NodeType → Bool
  | .COMPONENT => true
  | .COMPONENT_SET => true
  | .INSTANCE => true
  | .FRAME => true
  | .PAGE => true
  | .DOCUMENT => true
  | .TEXT => false

/-- Fuel sufficient for any walk through the store that visits each node at
most once. -/
def docFuel (d : Doc) : Nat := d.nodes.length + 1

/-! ## Traversal engine (`utils/traversal.ts`) -/

/-- The pre-order visit sequence of `traverseNode(node, cb)`: the node, then
the subtrees of its children in order. -/
def subtreeNodes (d : Doc) : Nat → SNode → List SNode
  | 0, _ => []
  | fuel + 1, n =>
    n :: (n.children.filterMap d.getNodeById).flatMap (subtreeNodes d fuel)

/-- `findComponentInstances`: all `INSTANCE` nodes in the pre-order
sequence. -/
def findComponentInstances (d : Doc) (fuel : Nat) (n : SNode) : List SNode :=
  (subtreeNodes d fuel n).filter (fun m => m.ntype == NodeType.INSTANCE)

/-- `getMainComponent(instance)`: resolve `instance.mainComponent`. -/
def getMainComponent (d : Doc) (inst : SNode) : Option SNode :=
  inst.mainComponent.bind d.getNodeById

/-- The loop of `getNodeDepth`: climb `parent` pointers, counting, until a
`DOCUMENT` node (or a missing parent) is reached. -/
def depthGo (d : Doc) : Nat → Option String → Nat → Nat
  | 0, _, depth => depth
  | _fuel + 1, none, depth => depth
  | fuel + 1, some pid, depth =>
    match d.getNodeById pid with
    | none => depth
    | some pn =>
      if pn.ntype == NodeType.DOCUMENT then depth
      else depthGo d fuel pn.parent (depth + 1)

/-- `getNodeDepth(node)`. -/
def getNodeDepth (d : Doc) (n : SNode) : Nat :=
  depthGo d (docFuel d) n.parent 0

/-! ## Validator (`utils/validator.ts`) -/

inductive WarningType where
  | EXTERNAL_DEPENDENCY
  | LOCKED_COMPONENT
  | MISSING_DEFINITION
  | HIDDEN_COMPONENT
deriving DecidableEq

structure Warning where
  wtype : WarningType
  message : String
  componentId : Option String := none
  componentName : Option String := none
deriving DecidableEq

/-- `component.key.startsWith(figma.root.id)` — the string-prefix ownership
test of `isLocalComponent`. -/
def isLocalComponent (d : Doc) (c : SNode) : Bool :=
  d.rootId.data.isPrefixOf c.key.data

/-- `validateSelection`: a MISSING_DEFINITION warning iff the selection is
empty. -/
def validateSelection (selection : List SNode) : List Warning :=
  if selection.length = 0 then
    [{ wtype := .MISSING_DEFINITION,
       message := "No nodes selected. Please select at least one frame, component, or instance." }]
  else []

/-- `validateComponent`: independent external / locked / hidden checks. -/
def validateComponent (d : Doc) (c : SNode) : List Warning :=
  (if isLocalComponent d c then []
   else [{ wtype := .EXTERNAL_DEPENDENCY,
           message := "Component \"" ++ c.name
             ++ "\" is from an external library and cannot be transferred. Please include this library in the destination file.",
           componentId := some c.id, componentName := some c.name }])
  ++ (if c.locked then
        [{ wtype := .LOCKED_COMPONENT,
           message := "Component \"" ++ c.name
             ++ "\" is locked and cannot be transferred.",
           componentId := some c.id, componentName := some c.name }]
      else [])
  ++ (if c.visible then []
      else [{ wtype := .HIDDEN_COMPONENT,
              message := "Component \"" ++ c.name ++ "\" is hidden.",
              componentId := some c.id, componentName := some c.name }])

/-- `validateMainComponent(instance)`: a MISSING_DEFINITION warning when the
instance's definition is absent. -/
def validateMainComponent (d : Doc) (inst : SNode) : Option Warning :=
  match getMainComponent d inst with
  | some _ => none
  | none =>
    some { wtype := .MISSING_DEFINITION,
           message := "Instance \"" ++ inst.name
             ++ "\" has no main component definition. It may have been deleted or is from a detached library.",
           componentId := some inst.id, componentName := some inst.name }

/-! ## Dependency analyzer (`utils/analyzer.ts`)

`ComponentInfo` and the analyzer state.  The JavaScript `Map` is modelled as
an insertion-ordered association list: `set` on a fresh key appends, `set` on
a present key updates in place; this is exactly the iteration order contract
of `Map`.  The source mutates `info.children` (an array also held by the
map) while recursing; since nothing reads `children` during the recursion —
the recursion only tests key membership — we thread the accumulated children
list explicitly and write it back with a final in-place `set`, which is
observationally identical. -/

structure ComponentInfo where
  id : String
  name : String
  description : String
  type : NodeType
  isLocal : Bool
  isHidden : Bool
  isLocked : Bool
  variantCount : Option Nat := none
  variantProperties : Option (List (String × String)) := none
  children : List String
  level : Nat
deriving DecidableEq

/-- `componentMap.has`. -/
def mapHas (m : List (String × ComponentInfo)) (id : String) : Bool :=
  m.any (fun p => p.1 == id)

/-- `componentMap.set`: in-place update when the key is present, append
otherwise. -/
def mapSet (m : List (String × ComponentInfo)) (id : String)
    (info : ComponentInfo) : List (String × ComponentInfo) :=
  if mapHas m id then m.map (fun p => if p.1 == id then (id, info) else p)
  else m ++ [(id, info)]

/-- `componentMap.get`. -/
def mapGet (m : List (String × ComponentInfo)) (id : String) :
    Option ComponentInfo :=
  (m.find? (fun p => p.1 == id)).map Prod.snd

structure FilterOptions where
  includeHidden : Bool
  includeExternal : Bool
  searchTerm : Option String := none
  componentType : Option NodeType := none
deriving DecidableEq

/-- The default `FilterOptions` of `analyzeSelection`. -/
def defaultFilterOptions : FilterOptions :=
  { includeHidden := false, includeExternal := false }

/-- The mutable state of one analysis: the component map, the
`processedInstances` set, and the warnings array. -/
structure AnalyzerState where
  componentMap : List (String × ComponentInfo)
  processedInstances : List String
  warnings : List Warning
deriving DecidableEq

mutual

/-- `processComponent(component, componentMap, options, warnings)`. -/
def processComponent (d : Doc) (opts : FilterOptions) :
    Nat → SNode → AnalyzerState → AnalyzerState
  | 0, _, st => st
  | fuel + 1, c, st =>
    if mapHas st.componentMap c.id then st
    else
      let isLoc := isLocalComponent d c
      if !isLoc && !opts.includeExternal then st
      else if !c.visible && !opts.includeHidden then st
      else
        let st1 := { st with warnings := st.warnings ++ validateComponent d c }
        let info : ComponentInfo :=
          { id := c.id, name := c.name, description := c.description,
            type := .COMPONENT, isLocal := isLoc, isHidden := !c.visible,
            isLocked := c.locked, children := [], level := getNodeDepth d c }
        let st2 := { st1 with componentMap := mapSet st1.componentMap c.id info }
        let r := processCompChildren d opts fuel
          (findComponentInstances d (docFuel d) c) [] st2
        let final : ComponentInfo := { info with children := r.2 }
        { r.1 with componentMap := mapSet r.1.componentMap c.id final }

/-- The loop of `processComponent` over the nested instances: resolve each
instance, push the definition id (unconditionally), recurse. -/
def processCompChildren (d : Doc) (opts : FilterOptions) :
    Nat → List SNode → List String → AnalyzerState → AnalyzerState × List String
  | 0, _, acc, st => (st, acc)
  | _fuel + 1, [], acc, st => (st, acc)
  | fuel + 1, inst :: rest, acc, st =>
    match getMainComponent d inst with
    | none => processCompChildren d opts fuel rest acc st
    | some mc =>
      let acc2 := acc ++ [mc.id]
      let st2 :=
        if mc.ntype == NodeType.COMPONENT then processComponent d opts fuel mc st
        else if mc.ntype == NodeType.COMPONENT_SET then
          processComponentSet d opts fuel mc st
        else st
      processCompChildren d opts fuel rest acc2 st2

/-- `processComponentSet(componentSet, componentMap, options, warnings)`. -/
def processComponentSet (d : Doc) (opts : FilterOptions) :
    Nat → SNode → AnalyzerState → AnalyzerState
  | 0, _, st => st
  | fuel + 1, cs, st =>
    if mapHas st.componentMap cs.id then st
    else
      let isLoc := isLocalComponent d cs
      if !isLoc && !opts.includeExternal then st
      else if !cs.visible && !opts.includeHidden then st
      else
        let st1 := { st with warnings := st.warnings ++ validateComponent d cs }
        let vprops := (cs.propertyDefs.filter (fun p => p.ptype == "VARIANT")).map
          (fun p => (p.key, p.defaultValue))
        let info : ComponentInfo :=
          { id := cs.id, name := cs.name, description := cs.description,
            type := .COMPONENT_SET, isLocal := isLoc, isHidden := !cs.visible,
            isLocked := cs.locked, variantCount := some cs.children.length,
            variantProperties := some vprops, children := [],
            level := getNodeDepth d cs }
        let st2 := { st1 with componentMap := mapSet st1.componentMap cs.id info }
        let r := processSetVariants d opts fuel
          (cs.children.filterMap d.getNodeById) [] st2
        let final : ComponentInfo := { info with children := r.2 }
        { r.1 with componentMap := mapSet r.1.componentMap cs.id final }

/-- The loop of `processComponentSet` over the variant children: only
`COMPONENT` variants contribute their nested instances. -/
def processSetVariants (d : Doc) (opts : FilterOptions) :
    Nat → List SNode → List String → AnalyzerState → AnalyzerState × List String
  | 0, _, acc, st => (st, acc)
  | _fuel + 1, [], acc, st => (st, acc)
  | fuel + 1, v :: rest, acc, st =>
    if v.ntype == NodeType.COMPONENT then
      let r := processSetChildren d opts fuel
        (findComponentInstances d (docFuel d) v) acc st
      processSetVariants d opts fuel rest r.2 r.1
    else processSetVariants d opts fuel rest acc st

/-- The loop of `processComponentSet` over one variant's nested instances:
the definition id is pushed — and recursed into — only when not already
listed. -/
def processSetChildren (d : Doc) (opts : FilterOptions) :
    Nat → List SNode → List String → AnalyzerState → AnalyzerState × List String
  | 0, _, acc, st => (st, acc)
  | _fuel + 1, [], acc, st => (st, acc)
  | fuel + 1, inst :: rest, acc, st =>
    match getMainComponent d inst with
    | none => processSetChildren d opts fuel rest acc st
    | some mc =>
      if mc.id ∈ acc then processSetChildren d opts fuel rest acc st
      else
        let acc2 := acc ++ [mc.id]
        let st2 :=
          if mc.ntype == NodeType.COMPONENT then processComponent d opts fuel mc st
          else if mc.ntype == NodeType.COMPONENT_SET then
            processComponentSet d opts fuel mc st
          else st
        processSetChildren d opts fuel rest acc2 st2

/-- `processInstance(instance, componentMap, processedInstances, options,
warnings)`. -/
def processInstance (d : Doc) (opts : FilterOptions) :
    Nat → SNode → AnalyzerState → AnalyzerState
  | 0, _, st => st
  | fuel + 1, inst, st =>
    if inst.id ∈ st.processedInstances then st
    else
      let st1 := { st with
        processedInstances := st.processedInstances ++ [inst.id] }
      match validateMainComponent d inst with
      | some w => { st1 with warnings := st1.warnings ++ [w] }
      | none =>
        match getMainComponent d inst with
        | none => st1
        | some mc =>
          if mc.ntype == NodeType.COMPONENT then
            processComponent d opts fuel mc st1
          else if mc.ntype == NodeType.COMPONENT_SET then
            processComponentSet d opts fuel mc st1
          else st1

/-- `processNode(node, ...)`: dispatch a selected node by kind; container
nodes are traversed and every unseen `INSTANCE` in the subtree is
processed. -/
def processNode (d : Doc) (opts : FilterOptions) :
    Nat → SNode → AnalyzerState → AnalyzerState
  | 0, _, st => st
  | fuel + 1, n, st =>
    if n.ntype == NodeType.COMPONENT then processComponent d opts fuel n st
    else if n.ntype == NodeType.COMPONENT_SET then
      processComponentSet d opts fuel n st
    else if n.ntype == NodeType.INSTANCE then processInstance d opts fuel n st
    else if nodeHasChildren n.ntype then
      processVisited d opts fuel (subtreeNodes d (docFuel d) n) st
    else st

/-- The fold of `traverseNode`'s callback in `processNode`: each visited
`INSTANCE` not yet in `processedInstances` goes through `processInstance`. -/
def processVisited (d : Doc) (opts : FilterOptions) :
    Nat → List SNode → AnalyzerState → AnalyzerState
  | 0, _, st => st
  | _fuel + 1, [], st => st
  | fuel + 1, ch :: rest, st =>
    let st2 :=
      if ch.ntype == NodeType.INSTANCE && !(st.processedInstances.contains ch.id)
      then processInstance d opts fuel ch st
      else st
    processVisited d opts fuel rest st2

/-- The `for (const node of selection)` loop of `analyzeSelection`. -/
def processSelection (d : Doc) (opts : FilterOptions) :
    Nat → List SNode → AnalyzerState → AnalyzerState
  | 0, _, st => st
  | _fuel + 1, [], st => st
  | fuel + 1, n :: rest, st =>
    processSelection d opts fuel rest (processNode d opts fuel n st)

end

/-! ## Dependency tree reconstruction (`buildDependencyTree`) -/

inductive DependencyNode where
  | mk (component : ComponentInfo) (dependencies : List DependencyNode)

/-- The `ComponentInfo` at the top of a dependency node. -/
def DependencyNode.top : DependencyNode → ComponentInfo
  | .mk c _ => c

/-- The id at the top of a dependency node. -/
def DependencyNode.topId (t : DependencyNode) : String := t.top.id

/-- All component ids in a dependency node, in pre-order. -/
def DependencyNode.ids : DependencyNode → List String
  | .mk c deps =>
    c.id :: (deps.attach.map (fun x => DependencyNode.ids x.1)).flatten
decreasing_by
  have := List.sizeOf_lt_of_mem x.2
  simp only [DependencyNode.mk.sizeOf_spec]
  omega

/-- All component ids of a forest, in order. -/
def forestIds (ts : List DependencyNode) : List String :=
  (ts.map DependencyNode.ids).flatten

/-- The root ids of a forest. -/
def topIds (ts : List DependencyNode) : List String :=
  ts.map DependencyNode.topId

/-- Every id mentioned in some entry's `children` (the `allChildIds` set). -/
def allChildIds (m : List (String × ComponentInfo)) : List String :=
  (m.map (fun p => p.2.children)).flatten

mutual

/-- `buildDependencyNode(componentId, componentMap, processed)`: `none` on a
missing component (or exhausted fuel, which a large enough fuel rules out);
otherwise mark the id processed and expand the children not yet processed. -/
def buildDependencyNode (m : List (String × ComponentInfo)) :
    Nat → String → List String → Option DependencyNode × List String
  | 0, _, pr => (none, pr)
  | fuel + 1, id, pr =>
    match mapGet m id with
    | none => (none, pr)
    | some comp =>
      let r := buildDepsList m fuel comp.children (pr ++ [id])
      (some (.mk comp r.1), r.2)
termination_by fuel _ _ => (fuel, 0)

/-- The loop of `buildDependencyNode` over `component.children`. -/
def buildDepsList (m : List (String × ComponentInfo)) :
    Nat → List String → List String → List DependencyNode × List String
  | _fuel, [], pr => ([], pr)
  | fuel, cid :: rest, pr =>
    if cid ∈ pr then buildDepsList m fuel rest pr
    else
      match buildDependencyNode m fuel cid pr with
      | (none, pr2) => buildDepsList m fuel rest pr2
      | (some n, pr2) =>
        let rl := buildDepsList m fuel rest pr2
        (n :: rl.1, rl.2)
termination_by fuel cids _ => (fuel, cids.length + 1)

end

/-- The root loop of `buildDependencyTree`: a component is tried as a root
iff its id is in no entry's `children` and not yet processed. -/
def buildTreeGo (m : List (String × ComponentInfo)) (fuel : Nat)
    (allChild : List String) :
    List (String × ComponentInfo) → List String → List DependencyNode × List String
  | [], pr => ([], pr)
  | (id, _) :: rest, pr =>
    if id ∉ allChild ∧ id ∉ pr then
      match buildDependencyNode m fuel id pr with
      | (some n, pr2) =>
        let t := buildTreeGo m fuel allChild rest pr2
        (n :: t.1, t.2)
      | (none, pr2) => buildTreeGo m fuel allChild rest pr2
    else buildTreeGo m fuel allChild rest pr

/-- `buildDependencyTree(componentMap)`. -/
def buildDependencyTree (m : List (String × ComponentInfo)) (fuel : Nat) :
    List DependencyNode :=
  (buildTreeGo m fuel (allChildIds m) m []).1

/-! ## Statistics and the top-level `analyzeSelection` -/

structure AnalysisStats where
  totalComponents : Nat
  mainComponents : Nat
  childComponents : Nat
  variantSets : Nat
  externalComponents : Nat
  hiddenComponents : Nat
  lockedComponents : Nat
deriving DecidableEq

/-- `calculateStats`: one pass over the final map. -/
def calculateStats (m : List (String × ComponentInfo)) : AnalysisStats :=
  { totalComponents := m.length
    mainComponents := (m.filter (fun p => !p.2.children.isEmpty)).length
    childComponents := (m.filter (fun p => p.2.children.isEmpty)).length
    variantSets := (m.filter (fun p => p.2.type == NodeType.COMPONENT_SET)).length
    externalComponents := (m.filter (fun p => !p.2.isLocal)).length
    hiddenComponents := (m.filter (fun p => p.2.isHidden)).length
    lockedComponents := (m.filter (fun p => p.2.isLocked)).length }

structure AnalysisResult where
  components : List (String × ComponentInfo)
  dependencyTree : List DependencyNode
  warnings : List Warning
  stats : AnalysisStats

/-- `createEmptyResult(warnings)`. -/
def createEmptyResult (warnings : List Warning) : AnalysisResult :=
  { components := [], dependencyTree := [], warnings := warnings,
    stats := { totalComponents := 0, mainComponents := 0, childComponents := 0,
               variantSets := 0, externalComponents := 0, hiddenComponents := 0,
               lockedComponents := 0 } }

/-- `analyzeSelection(selection, options)`. -/
def analyzeSelection (d : Doc) (opts : FilterOptions) (fuel : Nat)
    (selection : List SNode) : AnalysisResult :=
  let warnings := validateSelection selection
  if selection.length = 0 then createEmptyResult warnings
  else
    let st := processSelection d opts fuel selection
      { componentMap := [], processedInstances := [], warnings := warnings }
    { components := st.componentMap,
      dependencyTree := buildDependencyTree st.componentMap fuel,
      warnings := st.warnings,
      stats := calculateStats st.componentMap }

/-! ## Concrete documents used in counterexamples and witnesses -/

/-- A node with the common default attributes (visible, unlocked, childless,
no parent, no main component). -/
def baseNode (id name : String) (t : NodeType) (key : String) : SNode :=
  { id := id, name := name, ntype := t, key := key, visible := true,
    locked := false, description := "", children := [], parent := none,
    mainComponent := none, propertyDefs := [] }

/-- An external component: its key does not start with the document root id
`"doc123"`. -/
def extWidget : SNode := baseNode "w1" "ExternalWidget" .COMPONENT "otherdoc_x"

/-- The document of the C1 example. -/
def docC1 : Doc := { rootId := "doc123", nodes := [extWidget] }

/-- A local Icon component. -/
def iconC2 : SNode := baseNode "ic" "Icon" .COMPONENT "doc_ic"

/-- Two instances of Icon nested inside Button. -/
def inst1C2 : SNode :=
  { baseNode "i1" "IconInstance1" .INSTANCE "" with mainComponent := some "ic" }

def inst2C2 : SNode :=
  { baseNode "i2" "IconInstance2" .INSTANCE "" with mainComponent := some "ic" }

/-- A local Button component containing the two Icon instances. -/
def btnC2 : SNode :=
  { baseNode "b" "Button" .COMPONENT "doc_b" with children := ["i1", "i2"] }

/-- The document of the C2 counterexample: one component whose subtree holds
two instances of the same definition. -/
def docC2 : Doc :=
  { rootId := "doc", nodes := [btnC2, inst1C2, inst2C2, iconC2] }

/-! ## Claim C1 -/

theorem processComponent_skips_external (d : Doc) (opts : FilterOptions)
    (fuel : Nat) (c : SNode) (st : AnalyzerState)
    (hext : isLocalComponent d c = false)
    (hopt : opts.includeExternal = false) :
    processComponent d opts fuel c st = st := by
  cases fuel with
  | zero => rfl
  | succ fuel =>
    simp only [processComponent, hext, hopt]
    by_cases h : mapHas st.componentMap c.id <;> simp [h]

theorem processSelection_nil (d : Doc) (opts : FilterOptions) (fuel : Nat)
    (st : AnalyzerState) : processSelection d opts fuel [] st = st := by
  cases fuel <;> rfl

/-- Counterexample to claim C1: for the selection consisting of the single
directly-selected external component `ExternalWidget` (key `"otherdoc_x"`,
root id `"doc123"`), `analyzeSelection` with default options returns an empty
components map — and an *empty* warnings list: the external component is
skipped before `validateComponent` runs, so no EXTERNAL_DEPENDENCY warning is
ever produced. -/
theorem analyzeSelection_external_no_warning_counterexample :
    (analyzeSelection docC1 defaultFilterOptions 8 [extWidget]).components = [] ∧
      (analyzeSelection docC1 defaultFilterOptions 8 [extWidget]).warnings = [] := by
  constructor <;> decide

/-- Claim C1, amended: a selection consisting of one directly-selected
external component, analyzed with default options
(`includeHidden = false`, `includeExternal = false`), produces an empty
components map and an *empty* warnings list — the component is skipped before
validation, so no EXTERNAL_DEPENDENCY warning is reported (the warning only
appears when `includeExternal = true`). -/
theorem analyzeSelection_external_only_selection (d : Doc) (c : SNode)
    (fuel : Nat) (htype : c.ntype = NodeType.COMPONENT)
    (hext : isLocalComponent d c = false) :
    (analyzeSelection d defaultFilterOptions fuel [c]).components = [] ∧
      (analyzeSelection d defaultFilterOptions fuel [c]).warnings = [] := by
  have hsel : validateSelection [c] = [] := by simp [validateSelection]
  have hst : processSelection d defaultFilterOptions fuel [c]
      { componentMap := [], processedInstances := [], warnings := [] } =
      { componentMap := [], processedInstances := [], warnings := [] } := by
    cases fuel with
    | zero => rfl
    | succ fuel =>
      simp only [processSelection, processSelection_nil]
      cases fuel with
      | zero => rfl
      | succ fuel =>
        simp only [processNode, htype]
        simp only [beq_self_eq_true, if_true]
        exact processComponent_skips_external d defaultFilterOptions _ c _ hext rfl
  simp only [analyzeSelection, hsel, List.length_cons, List.length_nil]
  norm_num
  rw [hst]
  constructor
  · rfl
  · rfl

/-- Witness for the amended C1 at the concrete C1 example document. -/
theorem analyzeSelection_external_only_selection_witness :
    (analyzeSelection docC1 defaultFilterOptions 3 [extWidget]).components = [] ∧
      (analyzeSelection docC1 defaultFilterOptions 3 [extWidget]).warnings = [] :=
  analyzeSelection_external_only_selection docC1 extWidget 3 (by decide) (by decide)

/-! ## Claim C2, counterexample -/

/-- Counterexample to claim C2: analyzing the selection `[Button]`, where
Button's subtree holds two instances of the same Icon definition, leaves
`"ic"` listed twice in Button's `children` — `processComponent` pushes the
resolved definition id unconditionally, with no membership test (only
`processComponentSet` deduplicates). -/
theorem processComponent_children_duplicates_counterexample :
    (mapGet (analyzeSelection docC2 defaultFilterOptions 12 [btnC2]).components
        "b").map ComponentInfo.children = some ["ic", "ic"] ∧
      ¬ (["ic", "ic"] : List String).Nodup := by
  constructor <;> decide

/-! ## Map lemmas

Properties of the association-list model of the JavaScript `Map`. -/

theorem mapHas_iff_mem_keys (m : List (String × ComponentInfo)) (id : String) :
    mapHas m id = true ↔ id ∈ m.map Prod.fst := by
  simp only [mapHas, List.any_eq_true, beq_iff_eq, List.mem_map]

theorem mapSet_absent (m : List (String × ComponentInfo)) (id : String)
    (info : ComponentInfo) (h : mapHas m id = false) :
    mapSet m id info = m ++ [(id, info)] := by
  simp [mapSet, h]

theorem keys_mapSet_present (m : List (String × ComponentInfo)) (id : String)
    (info : ComponentInfo) (h : mapHas m id = true) :
    (mapSet m id info).map Prod.fst = m.map Prod.fst := by
  simp only [mapSet, h, if_true, List.map_map]
  refine List.map_congr_left (fun p _ => ?_)
  by_cases hp : p.1 = id
  · simp [hp]
  · simp [hp]

theorem keys_mapSet_absent (m : List (String × ComponentInfo)) (id : String)
    (info : ComponentInfo) (h : mapHas m id = false) :
    (mapSet m id info).map Prod.fst = m.map Prod.fst ++ [id] := by
  rw [mapSet_absent m id info h]
  simp

theorem mem_mapSet (m : List (String × ComponentInfo)) (id : String)
    (info : ComponentInfo) (p : String × ComponentInfo)
    (hp : p ∈ mapSet m id info) : p ∈ m ∨ p = (id, info) := by
  by_cases h : mapHas m id
  · simp only [mapSet, h, if_true] at hp
    rcases List.mem_map.mp hp with ⟨q, hq, hg⟩
    by_cases hq1 : q.1 == id
    · right
      rw [← hg]
      simp [hq1]
    · left
      rw [← hg]
      simp only [hq1, Bool.false_eq_true, if_false]
      exact hq
  · rw [mapSet_absent m id info (by simpa using h)] at hp
    rcases List.mem_append.mp hp with h1 | h1
    · left; exact h1
    · right; simpa using h1

theorem mapHas_mapSet_mono (m : List (String × ComponentInfo)) (id : String)
    (info : ComponentInfo) (k : String) (h : mapHas m k = true) :
    mapHas (mapSet m id info) k = true := by
  rw [mapHas_iff_mem_keys] at h ⊢
  by_cases hid : mapHas m id
  · rw [keys_mapSet_present m id info hid]
    exact h
  · rw [keys_mapSet_absent m id info (by simpa using hid)]
    exact List.mem_append_left _ h

theorem mapHas_mapSet_self (m : List (String × ComponentInfo)) (id : String)
    (info : ComponentInfo) : mapHas (mapSet m id info) id = true := by
  rw [mapHas_iff_mem_keys]
  by_cases hid : mapHas m id
  · rw [keys_mapSet_present m id info hid]
    exact (mapHas_iff_mem_keys m id).mp hid
  · rw [keys_mapSet_absent m id info (by simpa using hid)]
    simp

theorem nodup_append_singleton {l : List String} {a : String} (h : l.Nodup)
    (ha : a ∉ l) : (l ++ [a]).Nodup := by
  simp [List.nodup_append, h, ha]

/-! ## Analyzer invariants

Three facts hold of every entry the analyzer ever places in the component
map: the entry's `ComponentInfo.id` equals its key; with
`includeExternal = false` the entry is local (the external check skips the
node before anything is inserted); and a `COMPONENT_SET` entry's `children`
list is duplicate-free (that loop guards each push with a membership test).
Together with key uniqueness these are preserved by every analyzer
function. -/

def EntryOk (opts : FilterOptions) (p : String × ComponentInfo) : Prop :=
  p.2.id = p.1 ∧ (opts.includeExternal = false → p.2.isLocal = true) ∧
    (p.2.type = NodeType.COMPONENT_SET → p.2.children.Nodup)

def MapInv (opts : FilterOptions) (m : List (String × ComponentInfo)) : Prop :=
  (m.map Prod.fst).Nodup ∧ ∀ p ∈ m, EntryOk opts p

def growsTo (m m2 : List (String × ComponentInfo)) : Prop :=
  ∀ k, mapHas m k = true → mapHas m2 k = true

theorem growsTo_refl (m : List (String × ComponentInfo)) : growsTo m m :=
  fun _ h => h

theorem growsTo_trans {m1 m2 m3 : List (String × ComponentInfo)}
    (h1 : growsTo m1 m2) (h2 : growsTo m2 m3) : growsTo m1 m3 :=
  fun k h => h2 k (h1 k h)

theorem mapInv_mapSet (opts : FilterOptions)
    (m : List (String × ComponentInfo)) (id : String) (info : ComponentInfo)
    (hinv : MapInv opts m) (hok : EntryOk opts (id, info)) :
    MapInv opts (mapSet m id info) := by
  obtain ⟨hnodup, hok_all⟩ := hinv
  by_cases h : mapHas m id = true
  · refine ⟨by rw [keys_mapSet_present m id info h]; exact hnodup, ?_⟩
    intro p hp
    rcases mem_mapSet m id info p hp with h1 | h1
    · exact hok_all p h1
    · rw [h1]; exact hok
  · have h2 : mapHas m id = false := by simpa using h
    refine ⟨?_, ?_⟩
    · rw [keys_mapSet_absent m id info h2]
      refine nodup_append_singleton hnodup ?_
      intro hmem
      exact h ((mapHas_iff_mem_keys m id).mpr hmem)
    · intro p hp
      rcases mem_mapSet m id info p hp with h1 | h1
      · exact hok_all p h1
      · rw [h1]; exact hok

theorem growsTo_mapSet (m : List (String × ComponentInfo)) (id : String)
    (info : ComponentInfo) : growsTo m (mapSet m id info) :=
  fun k h => mapHas_mapSet_mono m id info k h

/-- The `ComponentInfo` record built for a plain component is well-formed as
the entry at key `c.id`, for any children list, provided the guard on
external components has been passed. -/
theorem entryOk_component (d : Doc) (opts : FilterOptions) (c : SNode)
    (kids : List String)
    (hguard : (!isLocalComponent d c && !opts.includeExternal) = false) :
    EntryOk opts (c.id,
      { id := c.id, name := c.name, description := c.description,
        type := .COMPONENT, isLocal := isLocalComponent d c,
        isHidden := !c.visible, isLocked := c.locked, children := kids,
        level := getNodeDepth d c }) := by
  refine ⟨rfl, ?_, ?_⟩
  · intro hopt
    rw [hopt] at hguard
    simpa using hguard
  · intro habs
    exact absurd habs (by simp)

/-- The `ComponentInfo` record built for a component set is well-formed as
the entry at key `cs.id` provided the external guard has been passed and the
children list is duplicate-free. -/
theorem entryOk_componentSet (d : Doc) (opts : FilterOptions) (cs : SNode)
    (kids : List String)
    (hguard : (!isLocalComponent d cs && !opts.includeExternal) = false)
    (hkids : kids.Nodup) :
    EntryOk opts (cs.id,
      { id := cs.id, name := cs.name, description := cs.description,
        type := .COMPONENT_SET, isLocal := isLocalComponent d cs,
        isHidden := !cs.visible, isLocked := cs.locked,
        variantCount := some cs.children.length,
        variantProperties :=
          some ((cs.propertyDefs.filter (fun p => p.ptype == "VARIANT")).map
            (fun p => (p.key, p.defaultValue))),
        children := kids, level := getNodeDepth d cs }) := by
  refine ⟨rfl, ?_, fun _ => hkids⟩
  intro hopt
  rw [hopt] at hguard
  simpa using hguard

/-- Joint preservation of the analyzer invariants by every analyzer function,
by induction on the fuel.  For the two component-set children loops the
accumulated children list additionally stays duplicate-free. -/
theorem analyzerInv (d : Doc) (opts : FilterOptions) : ∀ fuel : Nat,
    (∀ c st, MapInv opts st.componentMap →
      MapInv opts (processComponent d opts fuel c st).componentMap ∧
        growsTo st.componentMap (processComponent d opts fuel c st).componentMap) ∧
    (∀ insts acc st, MapInv opts st.componentMap →
      MapInv opts (processCompChildren d opts fuel insts acc st).1.componentMap ∧
        growsTo st.componentMap
          (processCompChildren d opts fuel insts acc st).1.componentMap) ∧
    (∀ cs st, MapInv opts st.componentMap →
      MapInv opts (processComponentSet d opts fuel cs st).componentMap ∧
        growsTo st.componentMap
          (processComponentSet d opts fuel cs st).componentMap) ∧
    (∀ vars acc st, MapInv opts st.componentMap → acc.Nodup →
      (MapInv opts (processSetVariants d opts fuel vars acc st).1.componentMap ∧
        growsTo st.componentMap
          (processSetVariants d opts fuel vars acc st).1.componentMap) ∧
        (processSetVariants d opts fuel vars acc st).2.Nodup) ∧
    (∀ insts acc st, MapInv opts st.componentMap → acc.Nodup →
      (MapInv opts (processSetChildren d opts fuel insts acc st).1.componentMap ∧
        growsTo st.componentMap
          (processSetChildren d opts fuel insts acc st).1.componentMap) ∧
        (processSetChildren d opts fuel insts acc st).2.Nodup) ∧
    (∀ n st, MapInv opts st.componentMap →
      MapInv opts (processInstance d opts fuel n st).componentMap ∧
        growsTo st.componentMap (processInstance d opts fuel n st).componentMap) ∧
    (∀ n st, MapInv opts st.componentMap →
      MapInv opts (processNode d opts fuel n st).componentMap ∧
        growsTo st.componentMap (processNode d opts fuel n st).componentMap) ∧
    (∀ ns st, MapInv opts st.componentMap →
      MapInv opts (processVisited d opts fuel ns st).componentMap ∧
        growsTo st.componentMap (processVisited d opts fuel ns st).componentMap) ∧
    (∀ sel st, MapInv opts st.componentMap →
      MapInv opts (processSelection d opts fuel sel st).componentMap ∧
        growsTo st.componentMap
          (processSelection d opts fuel sel st).componentMap) := by
  intro fuel
  induction fuel with
  | zero =>
    refine ⟨fun c st h => ?_, fun insts acc st h => ?_, fun cs st h => ?_,
      fun vars acc st h hacc => ?_, fun insts acc st h hacc => ?_,
      fun n st h => ?_, fun n st h => ?_, fun ns st h => ?_, fun sel st h => ?_⟩
    · exact ⟨h, growsTo_refl _⟩
    · exact ⟨h, growsTo_refl _⟩
    · exact ⟨h, growsTo_refl _⟩
    · exact ⟨⟨h, growsTo_refl _⟩, hacc⟩
    · exact ⟨⟨h, growsTo_refl _⟩, hacc⟩
    · exact ⟨h, growsTo_refl _⟩
    · exact ⟨h, growsTo_refl _⟩
    · exact ⟨h, growsTo_refl _⟩
    · exact ⟨h, growsTo_refl _⟩
  | succ fuel ih =>
    obtain ⟨ihC, ihCC, ihS, ihSV, ihSC, ihI, ihN, ihV, ihSel⟩ := ih
    have stepDispatch : ∀ (mc : SNode) (st : AnalyzerState),
        MapInv opts st.componentMap →
        MapInv opts ((if mc.ntype == NodeType.COMPONENT then
            processComponent d opts fuel mc st
          else if mc.ntype == NodeType.COMPONENT_SET then
            processComponentSet d opts fuel mc st
          else st)).componentMap ∧
          growsTo st.componentMap
            ((if mc.ntype == NodeType.COMPONENT then
              processComponent d opts fuel mc st
            else if mc.ntype == NodeType.COMPONENT_SET then
              processComponentSet d opts fuel mc st
            else st)).componentMap := by
      intro mc st h
      by_cases h1 : mc.ntype == NodeType.COMPONENT
      · simp only [h1, if_true]
        exact ihC mc st h
      · simp only [h1, Bool.false_eq_true, if_false]
        by_cases h2 : mc.ntype == NodeType.COMPONENT_SET
        · simp only [h2, if_true]
          exact ihS mc st h
        · simp only [h2, Bool.false_eq_true, if_false]
          exact ⟨h, growsTo_refl _⟩
    have stepC : ∀ c st, MapInv opts st.componentMap →
        MapInv opts (processComponent d opts (fuel + 1) c st).componentMap ∧
          growsTo st.componentMap
            (processComponent d opts (fuel + 1) c st).componentMap := by
      intro c st h
      by_cases hhas : mapHas st.componentMap c.id = true
      · simp only [processComponent, hhas, if_true]
        exact ⟨h, growsTo_refl _⟩
      · simp only [processComponent, hhas, Bool.false_eq_true, if_false]
        by_cases hg1 : (!isLocalComponent d c && !opts.includeExternal) = true
        · simp only [hg1, if_true]
          exact ⟨h, growsTo_refl _⟩
        · have hg1f : (!isLocalComponent d c && !opts.includeExternal) = false := by
            simpa using hg1
          simp only [hg1f, Bool.false_eq_true, if_false]
          by_cases hg2 : (!c.visible && !opts.includeHidden) = true
          · simp only [hg2, if_true]
            exact ⟨h, growsTo_refl _⟩
          · have hg2f : (!c.visible && !opts.includeHidden) = false := by
              simpa using hg2
            simp only [hg2f, Bool.false_eq_true, if_false]
            have hinv2 : MapInv opts (mapSet st.componentMap c.id
                { id := c.id, name := c.name, description := c.description,
                  type := .COMPONENT, isLocal := isLocalComponent d c,
                  isHidden := !c.visible, isLocked := c.locked, children := [],
                  level := getNodeDepth d c }) :=
              mapInv_mapSet opts st.componentMap c.id _ h
                (entryOk_component d opts c [] hg1f)
            have hrec := ihCC (findComponentInstances d (docFuel d) c) []
              { st with
                warnings := st.warnings ++ validateComponent d c,
                componentMap := mapSet st.componentMap c.id
                  { id := c.id, name := c.name, description := c.description,
                    type := .COMPONENT, isLocal := isLocalComponent d c,
                    isHidden := !c.visible, isLocked := c.locked, children := [],
                    level := getNodeDepth d c } }
              hinv2
            refine ⟨?_, ?_⟩
            · exact mapInv_mapSet opts _ c.id _ hrec.1
                (entryOk_component d opts c _ hg1f)
            · refine growsTo_trans (growsTo_mapSet st.componentMap c.id _)
                (growsTo_trans hrec.2 (growsTo_mapSet _ c.id _))
      -- end stepC
    have stepS : ∀ cs st, MapInv opts st.componentMap →
        MapInv opts (processComponentSet d opts (fuel + 1) cs st).componentMap ∧
          growsTo st.componentMap
            (processComponentSet d opts (fuel + 1) cs st).componentMap := by
      intro cs st h
      by_cases hhas : mapHas st.componentMap cs.id = true
      · simp only [processComponentSet, hhas, if_true]
        exact ⟨h, growsTo_refl _⟩
      · simp only [processComponentSet, hhas, Bool.false_eq_true, if_false]
        by_cases hg1 : (!isLocalComponent d cs && !opts.includeExternal) = true
        · simp only [hg1, if_true]
          exact ⟨h, growsTo_refl _⟩
        · have hg1f : (!isLocalComponent d cs && !opts.includeExternal) = false := by
            simpa using hg1
          simp only [hg1f, Bool.false_eq_true, if_false]
          by_cases hg2 : (!cs.visible && !opts.includeHidden) = true
          · simp only [hg2, if_true]
            exact ⟨h, growsTo_refl _⟩
          · have hg2f : (!cs.visible && !opts.includeHidden) = false := by
              simpa using hg2
            simp only [hg2f, Bool.false_eq_true, if_false]
            have hinv2 : MapInv opts (mapSet st.componentMap cs.id
                { id := cs.id, name := cs.name, description := cs.description,
                  type := .COMPONENT_SET, isLocal := isLocalComponent d cs,
                  isHidden := !cs.visible, isLocked := cs.locked,
                  variantCount := some cs.children.length,
                  variantProperties :=
                    some ((cs.propertyDefs.filter
                      (fun p => p.ptype == "VARIANT")).map
                        (fun p => (p.key, p.defaultValue))),
                  children := [], level := getNodeDepth d cs }) :=
              mapInv_mapSet opts st.componentMap cs.id _ h
                (entryOk_componentSet d opts cs [] hg1f List.nodup_nil)
            have hrec := ihSV (cs.children.filterMap d.getNodeById) []
              { st with
                warnings := st.warnings ++ validateComponent d cs,
                componentMap := mapSet st.componentMap cs.id
                  { id := cs.id, name := cs.name, description := cs.description,
                    type := .COMPONENT_SET, isLocal := isLocalComponent d cs,
                    isHidden := !cs.visible, isLocked := cs.locked,
                    variantCount := some cs.children.length,
                    variantProperties :=
                      some ((cs.propertyDefs.filter
                        (fun p => p.ptype == "VARIANT")).map
                          (fun p => (p.key, p.defaultValue))),
                    children := [], level := getNodeDepth d cs } }
              hinv2 List.nodup_nil
            refine ⟨?_, ?_⟩
            · exact mapInv_mapSet opts _ cs.id _ hrec.1.1
                (entryOk_componentSet d opts cs _ hg1f hrec.2)
            · exact growsTo_trans (growsTo_mapSet st.componentMap cs.id _)
                (growsTo_trans hrec.1.2 (growsTo_mapSet _ cs.id _))
      -- end stepS
    have stepCC : ∀ insts acc st, MapInv opts st.componentMap →
        MapInv opts (processCompChildren d opts (fuel + 1) insts acc st).1.componentMap ∧
          growsTo st.componentMap
            (processCompChildren d opts (fuel + 1) insts acc st).1.componentMap := by
      intro insts acc st h
      cases insts with
      | nil => exact ⟨h, growsTo_refl _⟩
      | cons inst rest =>
        simp only [processCompChildren]
        cases hmc : getMainComponent d inst with
        | none => exact ihCC rest acc st h
        | some mc =>
          have hdisp := stepDispatch mc st h
          have hrest := ihCC rest (acc ++ [mc.id]) _ hdisp.1
          exact ⟨hrest.1, growsTo_trans hdisp.2 hrest.2⟩
    have stepSC : ∀ insts acc st, MapInv opts st.componentMap → acc.Nodup →
        (MapInv opts (processSetChildren d opts (fuel + 1) insts acc st).1.componentMap ∧
          growsTo st.componentMap
            (processSetChildren d opts (fuel + 1) insts acc st).1.componentMap) ∧
          (processSetChildren d opts (fuel + 1) insts acc st).2.Nodup := by
      intro insts acc st h hacc
      cases insts with
      | nil => exact ⟨⟨h, growsTo_refl _⟩, hacc⟩
      | cons inst rest =>
        simp only [processSetChildren]
        cases hmc : getMainComponent d inst with
        | none => exact ihSC rest acc st h hacc
        | some mc =>
          by_cases hdup : mc.id ∈ acc
          · simp only [hdup, if_true]
            exact ihSC rest acc st h hacc
          · simp only [hdup, if_false]
            have hdisp := stepDispatch mc st h
            have hrest := ihSC rest (acc ++ [mc.id]) _ hdisp.1
              (nodup_append_singleton hacc hdup)
            exact ⟨⟨hrest.1.1, growsTo_trans hdisp.2 hrest.1.2⟩, hrest.2⟩
    have stepSV : ∀ vars acc st, MapInv opts st.componentMap → acc.Nodup →
        (MapInv opts (processSetVariants d opts (fuel + 1) vars acc st).1.componentMap ∧
          growsTo st.componentMap
            (processSetVariants d opts (fuel + 1) vars acc st).1.componentMap) ∧
          (processSetVariants d opts (fuel + 1) vars acc st).2.Nodup := by
      intro vars acc st h hacc
      cases vars with
      | nil => exact ⟨⟨h, growsTo_refl _⟩, hacc⟩
      | cons v rest =>
        simp only [processSetVariants]
        by_cases hv : v.ntype == NodeType.COMPONENT
        · simp only [hv, if_true]
          have hsc := ihSC (findComponentInstances d (docFuel d) v) acc st h hacc
          have hrest := ihSV rest _ _ hsc.1.1 hsc.2
          exact ⟨⟨hrest.1.1, growsTo_trans hsc.1.2 hrest.1.2⟩, hrest.2⟩
        · simp only [hv, Bool.false_eq_true, if_false]
          exact ihSV rest acc st h hacc
    have stepI : ∀ n st, MapInv opts st.componentMap →
        MapInv opts (processInstance d opts (fuel + 1) n st).componentMap ∧
          growsTo st.componentMap
            (processInstance d opts (fuel + 1) n st).componentMap := by
      intro n st h
      simp only [processInstance]
      by_cases hseen : n.id ∈ st.processedInstances
      · simp only [hseen, if_true]
        exact ⟨h, growsTo_refl _⟩
      · simp only [hseen, if_false]
        cases hw : validateMainComponent d n with
        | some w => exact ⟨h, growsTo_refl _⟩
        | none =>
          cases hmc : getMainComponent d n with
          | none => exact ⟨h, growsTo_refl _⟩
          | some mc =>
            exact stepDispatch mc
              { st with processedInstances := st.processedInstances ++ [n.id] } h
    have stepV : ∀ ns st, MapInv opts st.componentMap →
        MapInv opts (processVisited d opts (fuel + 1) ns st).componentMap ∧
          growsTo st.componentMap
            (processVisited d opts (fuel + 1) ns st).componentMap := by
      intro ns st h
      cases ns with
      | nil => exact ⟨h, growsTo_refl _⟩
      | cons ch rest =>
        simp only [processVisited]
        by_cases hch : (ch.ntype == NodeType.INSTANCE
            && !(st.processedInstances.contains ch.id)) = true
        · simp only [hch, if_true]
          have hi := ihI ch st h
          have hrest := ihV rest _ hi.1
          exact ⟨hrest.1, growsTo_trans hi.2 hrest.2⟩
        · simp only [hch, Bool.false_eq_true, if_false]
          exact ihV rest st h
    have stepN : ∀ n st, MapInv opts st.componentMap →
        MapInv opts (processNode d opts (fuel + 1) n st).componentMap ∧
          growsTo st.componentMap
            (processNode d opts (fuel + 1) n st).componentMap := by
      intro n st h
      simp only [processNode]
      by_cases h1 : n.ntype == NodeType.COMPONENT
      · simp only [h1, if_true]
        exact ihC n st h
      · simp only [h1, Bool.false_eq_true, if_false]
        by_cases h2 : n.ntype == NodeType.COMPONENT_SET
        · simp only [h2, if_true]
          exact ihS n st h
        · simp only [h2, Bool.false_eq_true, if_false]
          by_cases h3 : n.ntype == NodeType.INSTANCE
          · simp only [h3, if_true]
            exact ihI n st h
          · simp only [h3, Bool.false_eq_true, if_false]
            by_cases h4 : nodeHasChildren n.ntype = true
            · simp only [h4, if_true]
              exact ihV (subtreeNodes d (docFuel d) n) st h
            · simp only [h4, Bool.false_eq_true, if_false]
              exact ⟨h, growsTo_refl _⟩
    have stepSel : ∀ sel st, MapInv opts st.componentMap →
        MapInv opts (processSelection d opts (fuel + 1) sel st).componentMap ∧
          growsTo st.componentMap
            (processSelection d opts (fuel + 1) sel st).componentMap := by
      intro sel st h
      cases sel with
      | nil => exact ⟨h, growsTo_refl _⟩
      | cons n rest =>
        simp only [processSelection]
        have hn := ihN n st h
        have hrest := ihSel rest _ hn.1
        exact ⟨hrest.1, growsTo_trans hn.2 hrest.2⟩
    exact ⟨stepC, stepCC, stepS, stepSV, stepSC, stepI, stepN, stepV, stepSel⟩

/-- Every entry of an `analyzeSelection` result satisfies the analyzer entry
invariants, and the keys of the result map are unique. -/
theorem analyzeSelection_mapInv (d : Doc) (opts : FilterOptions) (fuel : Nat)
    (sel : List SNode) :
    MapInv opts (analyzeSelection d opts fuel sel).components := by
  by_cases hsel : sel.length = 0
  · simp only [analyzeSelection, hsel, if_true]
    exact ⟨List.nodup_nil, by simp [createEmptyResult]⟩
  · simp only [analyzeSelection, hsel, if_false]
    have h0 : MapInv opts
        (AnalyzerState.componentMap
          ⟨[], [], validateSelection sel⟩) :=
      ⟨List.nodup_nil, by simp⟩
    exact ((analyzerInv d opts fuel).2.2.2.2.2.2.2.2 sel
      ⟨[], [], validateSelection sel⟩ h0).1

/-! ## Claim C2, amended -/

/-- Claim C2, amended: the deduplication guard exists only in
`processComponentSet`; a plain component's `children` may repeat an id (see
the counterexample), while every `COMPONENT_SET` entry of every analysis
result has a duplicate-free `children` list. -/
theorem analyzeSelection_componentSet_children_nodup (d : Doc)
    (opts : FilterOptions) (fuel : Nat) (sel : List SNode) :
    ∀ p ∈ (analyzeSelection d opts fuel sel).components,
      p.2.type = NodeType.COMPONENT_SET → p.2.children.Nodup := by
  intro p hp
  exact ((analyzeSelection_mapInv d opts fuel sel).2 p hp).2.2

/-- A component set with two variants, each holding an instance of the same
Icon definition — the set's `children` list ends up as `["ic"]`, not
`["ic", "ic"]`. -/
def variant1CS : SNode :=
  { baseNode "v1" "Primary" .COMPONENT "doc_v1" with children := ["k1"] }

def variant2CS : SNode :=
  { baseNode "v2" "Secondary" .COMPONENT "doc_v2" with children := ["k2"] }

def instKCS1 : SNode :=
  { baseNode "k1" "IconInst1" .INSTANCE "" with mainComponent := some "ic" }

def instKCS2 : SNode :=
  { baseNode "k2" "IconInst2" .INSTANCE "" with mainComponent := some "ic" }

def setCS : SNode :=
  { baseNode "vs" "ButtonVariants" .COMPONENT_SET "doc_vs" with
      children := ["v1", "v2"] }

def docCS : Doc :=
  { rootId := "doc",
    nodes := [setCS, variant1CS, variant2CS, instKCS1, instKCS2, iconC2] }

/-- Witness for the amended C2 at the concrete variant-set document. -/
theorem analyzeSelection_componentSet_children_nodup_witness :
    ((analyzeSelection docCS defaultFilterOptions 14 [setCS]).components.all
        (fun p => !(p.2.type == NodeType.COMPONENT_SET)
          || decide p.2.children.Nodup)) = true ∧
      (mapGet (analyzeSelection docCS defaultFilterOptions 14 [setCS]).components
        "vs").map ComponentInfo.children = some ["ic"] := by
  constructor
  · refine List.all_eq_true.mpr (fun p hp => ?_)
    by_cases ht : p.2.type == NodeType.COMPONENT_SET
    · have hnd := analyzeSelection_componentSet_children_nodup docCS
        defaultFilterOptions 14 [setCS] p hp (beq_iff_eq.mp ht)
      simp [ht, hnd]
    · simp [ht]
  · decide

/-! ## Claim C6 -/

/-- A local component with two selected instances of it. -/
def compC6 : SNode := baseNode "c" "Button" .COMPONENT "doc_c"

def instAC6 : SNode :=
  { baseNode "j1" "Instance1" .INSTANCE "" with mainComponent := some "c" }

def instBC6 : SNode :=
  { baseNode "j2" "Instance2" .INSTANCE "" with mainComponent := some "c" }

def docC6 : Doc := { rootId := "doc", nodes := [compC6, instAC6, instBC6] }

/-- Claim C6: analyzing a selection with two instances of the same definition
yields exactly one entry for that definition; in general the component map
holds at most one entry per id (its key list is duplicate-free), and
re-encountering an already-present id in `processComponent` is a no-op. -/
theorem analyzeSelection_idempotent_insertion :
    (analyzeSelection docC6 defaultFilterOptions 8
        [instAC6, instBC6]).components.map Prod.fst = ["c"] ∧
      (∀ (d : Doc) (opts : FilterOptions) (fuel : Nat) (sel : List SNode),
        ((analyzeSelection d opts fuel sel).components.map Prod.fst).Nodup) ∧
      (∀ (d : Doc) (opts : FilterOptions) (fuel : Nat) (c : SNode)
        (st : AnalyzerState), mapHas st.componentMap c.id = true →
        processComponent d opts fuel c st = st) := by
  refine ⟨by decide, ?_, ?_⟩
  · intro d opts fuel sel
    exact (analyzeSelection_mapInv d opts fuel sel).1
  · intro d opts fuel c st h
    cases fuel with
    | zero => rfl
    | succ fuel => simp only [processComponent, h, if_true]

/-- An analyzer state that already holds the entry `"c"`. -/
def stHasC : AnalyzerState :=
  { componentMap := [("c",
      { id := "c", name := "Button", description := "",
        type := .COMPONENT, isLocal := true, isHidden := false,
        isLocked := false, children := [], level := 0 })],
    processedInstances := [], warnings := [] }

/-- Witness for C6: uniqueness of the keys on the concrete two-instance run,
and the no-op re-encounter on a concrete state already holding `"c"`. -/
theorem analyzeSelection_idempotent_insertion_witness :
    ((analyzeSelection docC6 defaultFilterOptions 8
        [instAC6, instBC6]).components.map Prod.fst).Nodup ∧
      processComponent docC6 defaultFilterOptions 5 compC6 stHasC = stHasC := by
  constructor
  · exact analyzeSelection_idempotent_insertion.2.1 docC6 defaultFilterOptions 8
      [instAC6, instBC6]
  · exact analyzeSelection_idempotent_insertion.2.2 docC6 defaultFilterOptions 5
      compC6 stHasC (by decide)

/-! ## Claim C8 -/

/-- Claim C8: with `includeExternal = false`, every entry of the resulting
component map is local — non-local components and component sets are skipped
before anything would insert them. -/
theorem analyzeSelection_local_only (d : Doc) (fuel : Nat) (sel : List SNode)
    (opts : FilterOptions) (hopt : opts.includeExternal = false) :
    ∀ p ∈ (analyzeSelection d opts fuel sel).components, p.2.isLocal = true := by
  intro p hp
  exact ((analyzeSelection_mapInv d opts fuel sel).2 p hp).2.1 hopt

/-- Witness for C8 on a concrete mixed document: the external widget is
absent and everything kept is local. -/
theorem analyzeSelection_local_only_witness :
    defaultFilterOptions.includeExternal = false ∧
      ((analyzeSelection docC2 defaultFilterOptions 12 [btnC2]).components.all
        (fun p => p.2.isLocal)) = true := by
  refine ⟨rfl, ?_⟩
  refine List.all_eq_true.mpr (fun p hp => ?_)
  exact analyzeSelection_local_only docC2 12 [btnC2] defaultFilterOptions rfl p hp

/-! ## Forest reconstruction theory (claim C7)

`buildDependencyTree` declares a component a root iff no entry's `children`
mentions it, and expands each root through `buildDependencyNode` with one
global `processed` set.  We show: with unique keys, key-consistent entries
and an acyclic children relation (witnessed by a rank function, which the
host's ban on component cycles guarantees), every entry of the map lands in
exactly one position of the forest, an entry is a root iff it is not
mentioned as a child, and no root is mentioned as a child. -/

/-- Ids contributed by an optional node. -/
def optIds : Option DependencyNode → List String
  | none => []
  | some n => n.ids

theorem ids_mk (c : ComponentInfo) (deps : List DependencyNode) :
    (DependencyNode.mk c deps).ids
      = c.id :: (deps.map DependencyNode.ids).flatten := by
  simp only [DependencyNode.ids, List.attach_map_val]

/-- The number of map keys not yet processed; the decreasing measure of
`buildDependencyNode`'s recursion. -/
def ukm (m : List (String × ComponentInfo)) (pr : List String) : Nat :=
  ((m.map Prod.fst).filter (fun k => decide (k ∉ pr))).length

theorem length_filter_mono {l : List String} {p q : String → Bool}
    (h : ∀ a, q a = true → p a = true) :
    (l.filter q).length ≤ (l.filter p).length := by
  induction l with
  | nil => simp
  | cons a t ih =>
    cases hq : q a with
    | true =>
      simp only [List.filter_cons, hq, h a hq, if_true, List.length_cons]
      exact Nat.succ_le_succ ih
    | false =>
      simp only [List.filter_cons, hq, Bool.false_eq_true, if_false]
      cases hp : p a with
      | true =>
        simp only [hp, if_true, List.length_cons]
        exact Nat.le_succ_of_le ih
      | false =>
        simp only [hp, Bool.false_eq_true, if_false]
        exact ih

theorem length_filter_lt {l : List String} {p q : String → Bool}
    (h : ∀ a, q a = true → p a = true) (a0 : String) (ha0 : a0 ∈ l)
    (hp : p a0 = true) (hq : q a0 = false) :
    (l.filter q).length < (l.filter p).length := by
  induction l with
  | nil => cases ha0
  | cons a t ih =>
    rcases List.mem_cons.mp ha0 with rfl | hmem
    · simp only [List.filter_cons, hq, Bool.false_eq_true, if_false, hp, if_true,
        List.length_cons]
      exact Nat.lt_succ_of_le (length_filter_mono h)
    · cases hqa : q a with
      | true =>
        simp only [List.filter_cons, hqa, h a hqa, if_true, List.length_cons]
        exact Nat.succ_lt_succ (ih hmem)
      | false =>
        simp only [List.filter_cons, hqa, Bool.false_eq_true, if_false]
        cases hpa : p a with
        | true =>
          simp only [hpa, if_true, List.length_cons]
          exact Nat.lt_succ_of_lt (ih hmem)
        | false =>
          simp only [hpa, Bool.false_eq_true, if_false]
          exact ih hmem

theorem ukm_anti (m : List (String × ComponentInfo)) {pr pr2 : List String}
    (h : ∀ x ∈ pr, x ∈ pr2) : ukm m pr2 ≤ ukm m pr := by
  refine length_filter_mono (fun a ha => ?_)
  simp only [decide_eq_true_eq] at ha ⊢
  intro hmem
  exact ha (h a hmem)

theorem ukm_insert_lt (m : List (String × ComponentInfo)) {pr : List String}
    {id : String} (hin : id ∈ m.map Prod.fst) (hout : id ∉ pr) :
    ukm m (pr ++ [id]) < ukm m pr := by
  refine length_filter_lt (fun a ha => ?_) id hin ?_ ?_
  · simp only [decide_eq_true_eq, List.mem_append, List.mem_singleton] at ha ⊢
    intro hmem
    exact ha (Or.inl hmem)
  · simpa using hout
  · simp

theorem ukm_pos (m : List (String × ComponentInfo)) {pr : List String}
    {id : String} (hin : id ∈ m.map Prod.fst) (hout : id ∉ pr) :
    0 < ukm m pr := by
  have hmem : id ∈ (m.map Prod.fst).filter (fun k => decide (k ∉ pr)) :=
    List.mem_filter.mpr ⟨hin, by simpa using hout⟩
  exact List.length_pos.mpr (fun hnil => by rw [hnil] at hmem; cases hmem)

theorem mapGet_mem {m : List (String × ComponentInfo)} {id : String}
    {comp : ComponentInfo} (h : mapGet m id = some comp) : (id, comp) ∈ m := by
  unfold mapGet at h
  cases hf : m.find? (fun p => p.1 == id) with
  | none => rw [hf] at h; cases h
  | some p =>
    rw [hf] at h
    have hsnd : p.2 = comp := by simpa using h
    have hp := List.find?_some hf
    have hmem := List.mem_of_find?_eq_some hf
    have hid : p.1 = id := by simpa using hp
    have hpe : p = (id, comp) := by
      cases p with
      | mk a b =>
        simp only [Prod.mk.injEq]
        exact ⟨hid, hsnd⟩
    rw [← hpe]
    exact hmem

theorem mapGet_isSome_of_mem {m : List (String × ComponentInfo)} {id : String}
    (h : id ∈ m.map Prod.fst) : ∃ comp, mapGet m id = some comp := by
  rcases List.mem_map.mp h with ⟨p, hp, rfl⟩
  have : ∃ q, m.find? (fun q => q.1 == p.1) = some q := by
    rw [← Option.isSome_iff_exists]
    rw [List.find?_isSome]
    exact ⟨p, hp, by simp⟩
  rcases this with ⟨q, hq⟩
  exact ⟨q.2, by unfold mapGet; rw [hq]; rfl⟩

theorem mapGet_mem_keys {m : List (String × ComponentInfo)} {id : String}
    {comp : ComponentInfo} (h : mapGet m id = some comp) :
    id ∈ m.map Prod.fst :=
  List.mem_map.mpr ⟨(id, comp), mapGet_mem h, rfl⟩

theorem mapGet_of_mem_nodup :
    ∀ {m : List (String × ComponentInfo)}, (m.map Prod.fst).Nodup →
      ∀ {id : String} {comp : ComponentInfo}, (id, comp) ∈ m →
        mapGet m id = some comp := by
  intro m
  induction m with
  | nil =>
    intro _ id comp hmem
    cases hmem
  | cons p t ih =>
    intro hk id comp hmem
    have hk1 : (p.1 :: t.map Prod.fst).Nodup := by simpa using hk
    rcases List.mem_cons.mp hmem with heq | hmem2
    · rw [← heq]
      unfold mapGet
      simp [List.find?_cons]
    · have hne : ¬(p.1 == id) = true := by
        intro habs
        have heq2 : p.1 = id := by simpa using habs
        have hkey : id ∈ t.map Prod.fst :=
          List.mem_map.mpr ⟨(id, comp), hmem2, rfl⟩
        rw [heq2] at hk1
        exact (List.nodup_cons.mp hk1).1 hkey
      have ht := ih (List.nodup_cons.mp hk1).2 hmem2
      have hne2 : (p.1 == id) = false := by simpa using hne
      unfold mapGet at ht ⊢
      simp only [List.find?_cons, hne2, cond_false]
      exact ht

theorem mem_allChildIds {m : List (String × ComponentInfo)}
    {p : String × ComponentInfo} {cid : String} (hp : p ∈ m)
    (hc : cid ∈ p.2.children) : cid ∈ allChildIds m := by
  unfold allChildIds
  rw [List.mem_flatten]
  exact ⟨p.2.children, List.mem_map_of_mem _ hp, hc⟩

/-- Everything `buildDependencyNode m fuel id pr` guarantees: how the
processed list evolves, the shape of a successful node, that contributed ids
are keys, that they are the called id or some entry's child, freshness and
uniqueness of the contributed block, success on in-map ids with positive
fuel, and — under the fuel bound — that the children of every contributed
id are processed. -/
def NodeSpec (m : List (String × ComponentInfo)) (fuel : Nat) (id : String)
    (pr : List String) : Prop :=
  (buildDependencyNode m fuel id pr).2
      = pr ++ optIds (buildDependencyNode m fuel id pr).1 ∧
    (∀ n, (buildDependencyNode m fuel id pr).1 = some n →
      n.topId = id ∧ ∃ t, n.ids = id :: t) ∧
    (∀ x ∈ optIds (buildDependencyNode m fuel id pr).1, x ∈ m.map Prod.fst) ∧
    (∀ x ∈ optIds (buildDependencyNode m fuel id pr).1,
      x = id ∨ x ∈ allChildIds m) ∧
    (id ∉ pr → (optIds (buildDependencyNode m fuel id pr).1).Nodup ∧
      ∀ x ∈ optIds (buildDependencyNode m fuel id pr).1, x ∉ pr) ∧
    (0 < fuel → id ∈ m.map Prod.fst →
      ∃ n, (buildDependencyNode m fuel id pr).1 = some n) ∧
    (id ∉ pr → ukm m pr ≤ fuel →
      ∀ x ∈ optIds (buildDependencyNode m fuel id pr).1,
        ∀ comp2, mapGet m x = some comp2 → ∀ cid ∈ comp2.children,
          cid ∈ m.map Prod.fst → cid ∈ (buildDependencyNode m fuel id pr).2)

/-- The corresponding guarantees of the children loop `buildDepsList`. -/
def ListSpec (m : List (String × ComponentInfo)) (fuel : Nat)
    (cids : List String) (pr : List String) : Prop :=
  (buildDepsList m fuel cids pr).2
      = pr ++ ((buildDepsList m fuel cids pr).1.map DependencyNode.ids).flatten ∧
    (∀ x ∈ ((buildDepsList m fuel cids pr).1.map DependencyNode.ids).flatten,
      x ∈ m.map Prod.fst) ∧
    (∀ x ∈ ((buildDepsList m fuel cids pr).1.map DependencyNode.ids).flatten,
      x ∈ cids ∨ x ∈ allChildIds m) ∧
    (((buildDepsList m fuel cids pr).1.map DependencyNode.ids).flatten.Nodup ∧
      ∀ x ∈ ((buildDepsList m fuel cids pr).1.map DependencyNode.ids).flatten,
        x ∉ pr) ∧
    (ukm m pr ≤ fuel →
      (∀ cid ∈ cids, cid ∈ m.map Prod.fst →
        cid ∈ (buildDepsList m fuel cids pr).2) ∧
      (∀ x ∈ ((buildDepsList m fuel cids pr).1.map DependencyNode.ids).flatten,
        ∀ comp2, mapGet m x = some comp2 → ∀ cid2 ∈ comp2.children,
          cid2 ∈ m.map Prod.fst → cid2 ∈ (buildDepsList m fuel cids pr).2))

theorem listSpec_of_nodeSpec (m : List (String × ComponentInfo)) (fuel : Nat)
    (hnode : ∀ id pr, NodeSpec m fuel id pr) :
    ∀ cids pr, ListSpec m fuel cids pr := by
  intro cids
  induction cids with
  | nil =>
    intro pr
    refine ⟨by simp [buildDepsList], by simp [buildDepsList], by simp [buildDepsList],
      ⟨by simp [buildDepsList], by simp [buildDepsList]⟩, fun _ => ⟨?_, ?_⟩⟩
    · intro cid hcid
      cases hcid
    · intro x hx
      simp [buildDepsList] at hx
  | cons cid rest ih =>
    intro pr
    by_cases hin : cid ∈ pr
    · have heq : buildDepsList m fuel (cid :: rest) pr
          = buildDepsList m fuel rest pr := by
        simp only [buildDepsList, hin, if_true]
      obtain ⟨i1, i3, i4, ⟨i5a, i5b⟩, i7⟩ := ih pr
      unfold ListSpec
      rw [heq]
      refine ⟨i1, i3, ?_, ⟨i5a, i5b⟩, ?_⟩
      · intro x hx
        rcases i4 x hx with h | h
        · exact Or.inl (List.mem_cons_of_mem _ h)
        · exact Or.inr h
      · intro hfu
        obtain ⟨i7a, i7b⟩ := i7 hfu
        refine ⟨?_, i7b⟩
        intro c hc hck
        rcases List.mem_cons.mp hc with rfl | hc2
        · rw [i1]
          exact List.mem_append_left _ hin
        · exact i7a c hc2 hck
    · obtain ⟨n1, n2, n3, n4, n5, n6, n7⟩ := hnode cid pr
      rcases hb : (buildDependencyNode m fuel cid pr) with ⟨ro, pr2⟩
      have heqsnd : pr2 = pr ++ optIds ro := by
        rw [hb] at n1
        simpa using n1
      cases ro with
      | none =>
        have hpr2 : pr2 = pr := by simpa [optIds] using heqsnd
        subst hpr2
        have heq : buildDepsList m fuel (cid :: rest) pr2
            = buildDepsList m fuel rest pr2 := by
          simp only [buildDepsList, hin, if_false, hb]
        obtain ⟨i1, i3, i4, ⟨i5a, i5b⟩, i7⟩ := ih pr2
        unfold ListSpec
        rw [heq]
        refine ⟨i1, i3, ?_, ⟨i5a, i5b⟩, ?_⟩
        · intro x hx
          rcases i4 x hx with h | h
          · exact Or.inl (List.mem_cons_of_mem _ h)
          · exact Or.inr h
        · intro hfu
          obtain ⟨i7a, i7b⟩ := i7 hfu
          refine ⟨?_, i7b⟩
          intro c hc hck
          rcases List.mem_cons.mp hc with rfl | hc2
          · exfalso
            have hpos := ukm_pos m hck hin
            have hfpos : 0 < fuel := by omega
            rcases n6 hfpos hck with ⟨n, hn⟩
            rw [hb] at hn
            cases hn
          · exact i7a c hc2 hck
      | some n =>
        have heq1 : (buildDepsList m fuel (cid :: rest) pr).1
            = n :: (buildDepsList m fuel rest pr2).1 := by
          simp only [buildDepsList, hin, if_false, hb]
        have heq2 : (buildDepsList m fuel (cid :: rest) pr).2
            = (buildDepsList m fuel rest pr2).2 := by
          simp only [buildDepsList, hin, if_false, hb]
        have hids : optIds (some n) = n.ids := rfl
        have hpr2 : pr2 = pr ++ n.ids := by simpa [optIds] using heqsnd
        have hsome : (buildDependencyNode m fuel cid pr).1 = some n := by
          rw [hb]
        have htop := n2 n hsome
        obtain ⟨i1, i3, i4, ⟨i5a, i5b⟩, i7⟩ := ih pr2
        have hflat : ((buildDepsList m fuel (cid :: rest) pr).1.map
            DependencyNode.ids).flatten
            = n.ids ++ ((buildDepsList m fuel rest pr2).1.map
              DependencyNode.ids).flatten := by
          rw [heq1]
          simp
        have hprsub : ∀ x ∈ pr, x ∈ pr2 := by
          intro x hx
          rw [hpr2]
          exact List.mem_append_left _ hx
        refine ⟨?_, ?_, ?_, ⟨?_, ?_⟩, fun hfu => ?_⟩
        · rw [heq2, hflat, i1, hpr2]
          simp
        · rw [hflat]
          intro x hx
          rcases List.mem_append.mp hx with h | h
          · exact n3 x (by rw [hsome]; exact h)
          · exact i3 x h
        · rw [hflat]
          intro x hx
          rcases List.mem_append.mp hx with h | h
          · rcases n4 x (by rw [hsome]; exact h) with h2 | h2
            · exact Or.inl (h2 ▸ List.mem_cons_self cid rest)
            · exact Or.inr h2
          · rcases i4 x h with h2 | h2
            · exact Or.inl (List.mem_cons_of_mem _ h2)
            · exact Or.inr h2
        · rw [hflat]
          have hn5 := n5 hin
          have hnodup1 : n.ids.Nodup := by
            have := hn5.1
            rw [hsome] at this
            exact this
          refine List.Nodup.append hnodup1 i5a ?_
          intro x hx1 hx2
          have := i5b x hx2
          rw [hpr2] at this
          exact this (List.mem_append_right _ hx1)
        · rw [hflat]
          intro x hx
          rcases List.mem_append.mp hx with h | h
          · exact (n5 hin).2 x (by rw [hsome]; exact h)
          · intro habs
            exact (i5b x h) (hprsub x habs)
        · have hfu2 : ukm m pr2 ≤ fuel := le_trans (ukm_anti m hprsub) hfu
          obtain ⟨i7a, i7b⟩ := i7 hfu2
          refine ⟨?_, ?_⟩
          · intro c hc hck
            rw [heq2]
            rcases List.mem_cons.mp hc with rfl | hc2
            · rw [i1]
              refine List.mem_append_left _ ?_
              rw [hpr2]
              refine List.mem_append_right _ ?_
              rcases htop.2 with ⟨t, ht⟩
              rw [ht]
              exact List.mem_cons_self _ _
            · exact i7a c hc2 hck
          · rw [hflat, heq2]
            intro x hx comp2 hcomp2 cid2 hcid2 hcid2k
            rcases List.mem_append.mp hx with h | h
            · have := n7 hin hfu x (by rw [hsome]; exact h) comp2 hcomp2
                cid2 hcid2 hcid2k
              rw [hb] at this
              rw [i1]
              refine List.mem_append_left _ ?_
              simpa using this
            · exact i7b x h comp2 hcomp2 cid2 hcid2 hcid2k

theorem nodeSpec_all (m : List (String × ComponentInfo))
    (hid : ∀ p ∈ m, p.2.id = p.1) :
    ∀ fuel id pr, NodeSpec m fuel id pr := by
  intro fuel
  induction fuel with
  | zero =>
    intro id pr
    have heq : buildDependencyNode m 0 id pr = (none, pr) := by
      simp [buildDependencyNode]
    refine ⟨?_, ?_, ?_, ?_, ?_, ?_, ?_⟩
    · rw [heq]; simp [optIds]
    · intro n hn
      rw [heq] at hn
      cases hn
    · intro x hx
      rw [heq] at hx
      cases hx
    · intro x hx
      rw [heq] at hx
      cases hx
    · intro _
      rw [heq]
      exact ⟨List.nodup_nil, fun x hx => by cases hx⟩
    · intro hf
      exact absurd hf (lt_irrefl 0)
    · intro _ _ x hx
      rw [heq] at hx
      cases hx
  | succ fuel ih =>
    intro id pr
    have hlist := listSpec_of_nodeSpec m fuel ih
    cases hg : mapGet m id with
    | none =>
      have heq : buildDependencyNode m (fuel + 1) id pr = (none, pr) := by
        rw [buildDependencyNode, hg]
      refine ⟨?_, ?_, ?_, ?_, ?_, ?_, ?_⟩
      · rw [heq]; simp [optIds]
      · intro n hn
        rw [heq] at hn
        cases hn
      · intro x hx
        rw [heq] at hx
        cases hx
      · intro x hx
        rw [heq] at hx
        cases hx
      · intro _
        rw [heq]
        exact ⟨List.nodup_nil, fun x hx => by cases hx⟩
      · intro _ hkey
        rcases mapGet_isSome_of_mem hkey with ⟨comp, hcomp⟩
        rw [hg] at hcomp
        cases hcomp
      · intro _ _ x hx
        rw [heq] at hx
        cases hx
    | some comp =>
      have heq : buildDependencyNode m (fuel + 1) id pr
          = (some (DependencyNode.mk comp
              (buildDepsList m fuel comp.children (pr ++ [id])).1),
            (buildDepsList m fuel comp.children (pr ++ [id])).2) := by
        rw [buildDependencyNode, hg]
      have hcid : comp.id = id := by
        have := hid (id, comp) (mapGet_mem hg)
        simpa using this
      have hkey : id ∈ m.map Prod.fst := mapGet_mem_keys hg
      obtain ⟨l1, l3, l4, ⟨l5a, l5b⟩, l7⟩ := hlist comp.children (pr ++ [id])
      have hids : (DependencyNode.mk comp
          (buildDepsList m fuel comp.children (pr ++ [id])).1).ids
          = id :: ((buildDepsList m fuel comp.children
              (pr ++ [id])).1.map DependencyNode.ids).flatten := by
        rw [ids_mk, hcid]
      refine ⟨?_, ?_, ?_, ?_, ?_, ?_, ?_⟩
      · rw [heq]
        show (buildDepsList m fuel comp.children (pr ++ [id])).2
          = pr ++ optIds (some (DependencyNode.mk comp
              (buildDepsList m fuel comp.children (pr ++ [id])).1))
        rw [show optIds (some (DependencyNode.mk comp
            (buildDepsList m fuel comp.children (pr ++ [id])).1))
          = (DependencyNode.mk comp
              (buildDepsList m fuel comp.children (pr ++ [id])).1).ids from rfl]
        rw [hids, l1]
        simp
      · intro n hn
        rw [heq] at hn
        have hn2 := Option.some.inj hn
        constructor
        · rw [← hn2]
          show (DependencyNode.mk comp _).top.id = id
          exact hcid
        · exact ⟨_, by rw [← hn2]; exact hids⟩
      · intro x hx
        rw [heq] at hx
        rw [show optIds (some (DependencyNode.mk comp
            (buildDepsList m fuel comp.children (pr ++ [id])).1))
          = (DependencyNode.mk comp
              (buildDepsList m fuel comp.children (pr ++ [id])).1).ids from rfl,
          hids] at hx
        rcases List.mem_cons.mp hx with rfl | hx2
        · exact hkey
        · exact l3 x hx2
      · intro x hx
        rw [heq] at hx
        rw [show optIds (some (DependencyNode.mk comp
            (buildDepsList m fuel comp.children (pr ++ [id])).1))
          = (DependencyNode.mk comp
              (buildDepsList m fuel comp.children (pr ++ [id])).1).ids from rfl,
          hids] at hx
        rcases List.mem_cons.mp hx with rfl | hx2
        · exact Or.inl rfl
        · rcases l4 x hx2 with h | h
          · exact Or.inr (mem_allChildIds (mapGet_mem hg) h)
          · exact Or.inr h
      · intro hin
        rw [heq]
        rw [show optIds (some (DependencyNode.mk comp
            (buildDepsList m fuel comp.children (pr ++ [id])).1))
          = (DependencyNode.mk comp
              (buildDepsList m fuel comp.children (pr ++ [id])).1).ids from rfl,
          hids]
        constructor
        · refine List.nodup_cons.mpr ⟨?_, l5a⟩
          intro habs
          exact (l5b id habs) (List.mem_append_right _ (List.mem_singleton.mpr rfl))
        · intro x hx
          rcases List.mem_cons.mp hx with rfl | hx2
          · exact hin
          · intro habs
            exact (l5b x hx2) (List.mem_append_left _ habs)
      · intro _ _
        rw [heq]
        exact ⟨_, rfl⟩
      · intro hin hfu
        have hlt := ukm_insert_lt m hkey hin
        have hfu2 : ukm m (pr ++ [id]) ≤ fuel := by omega
        obtain ⟨l7a, l7b⟩ := l7 hfu2
        intro x hx comp2 hcomp2 cid hcid2 hcid2k
        rw [heq] at hx ⊢
        rw [show optIds (some (DependencyNode.mk comp
            (buildDepsList m fuel comp.children (pr ++ [id])).1))
          = (DependencyNode.mk comp
              (buildDepsList m fuel comp.children (pr ++ [id])).1).ids from rfl,
          hids] at hx
        rcases List.mem_cons.mp hx with rfl | hx2
        · have hcc : comp2 = comp := by
            rw [hg] at hcomp2
            exact (Option.some.inj hcomp2).symm
          rw [hcc] at hcid2
          exact l7a cid hcid2 hcid2k
        · exact l7b x hx2 comp2 hcomp2 cid hcid2 hcid2k

theorem listSpec_all (m : List (String × ComponentInfo))
    (hid : ∀ p ∈ m, p.2.id = p.1) :
    ∀ fuel cids pr, ListSpec m fuel cids pr :=
  fun fuel => listSpec_of_nodeSpec m fuel (nodeSpec_all m hid fuel)

theorem ukm_le (m : List (String × ComponentInfo)) (pr : List String) :
    ukm m pr ≤ m.length := by
  unfold ukm
  calc ((m.map Prod.fst).filter (fun k => decide (k ∉ pr))).length
      ≤ (m.map Prod.fst).length := List.length_filter_le _ _
    _ = m.length := List.length_map m Prod.fst

/-- Everything the root loop `buildTreeGo` (run on `allChildIds m`)
guarantees: how the processed list evolves, that every forest root escapes
`allChildIds`, freshness and uniqueness of the processed list, that each
unreferenced entry gets processed, that the processed list is closed under
in-map children, and that each unreferenced and unprocessed entry becomes a
root of the forest. -/
def TreeSpec (m : List (String × ComponentInfo)) (fuel : Nat)
    (entries : List (String × ComponentInfo)) (pr : List String) : Prop :=
  (buildTreeGo m fuel (allChildIds m) entries pr).2
      = pr ++ forestIds (buildTreeGo m fuel (allChildIds m) entries pr).1 ∧
    (∀ t ∈ (buildTreeGo m fuel (allChildIds m) entries pr).1,
      t.topId ∉ allChildIds m) ∧
    (∀ x ∈ forestIds (buildTreeGo m fuel (allChildIds m) entries pr).1,
      x ∉ pr) ∧
    (pr.Nodup → (buildTreeGo m fuel (allChildIds m) entries pr).2.Nodup) ∧
    (0 < fuel → ∀ id info, (id, info) ∈ entries → id ∈ m.map Prod.fst →
      id ∉ allChildIds m →
      id ∈ (buildTreeGo m fuel (allChildIds m) entries pr).2) ∧
    (m.length ≤ fuel →
      ∀ x ∈ (buildTreeGo m fuel (allChildIds m) entries pr).2, x ∉ pr →
        ∀ comp2, mapGet m x = some comp2 → ∀ cid ∈ comp2.children,
          cid ∈ m.map Prod.fst →
          cid ∈ (buildTreeGo m fuel (allChildIds m) entries pr).2) ∧
    (0 < fuel → (entries.map Prod.fst).Nodup →
      ∀ id info, (id, info) ∈ entries → id ∈ m.map Prod.fst →
        id ∉ allChildIds m → id ∉ pr →
        id ∈ topIds (buildTreeGo m fuel (allChildIds m) entries pr).1)

theorem treeSpec_all (m : List (String × ComponentInfo))
    (hid : ∀ p ∈ m, p.2.id = p.1) (fuel : Nat) :
    ∀ entries pr, TreeSpec m fuel entries pr := by
  intro entries
  induction entries with
  | nil =>
    intro pr
    have heq : buildTreeGo m fuel (allChildIds m) [] pr = ([], pr) := rfl
    refine ⟨?_, ?_, ?_, ?_, ?_, ?_, ?_⟩
    · rw [heq]; simp [forestIds]
    · intro t ht
      rw [heq] at ht
      cases ht
    · intro x hx
      rw [heq] at hx
      simp [forestIds] at hx
    · intro h
      rw [heq]
      exact h
    · intro _ id info hmem
      cases hmem
    · intro _ x hx hxpr comp2 hc cid hcid hcidk
      rw [heq] at hx
      exact absurd hx hxpr
    · intro _ _ id info hmem
      cases hmem
  | cons e rest ih =>
    intro pr
    rcases e with ⟨id0, info0⟩
    by_cases hg : id0 ∉ allChildIds m ∧ id0 ∉ pr
    · rcases hb : buildDependencyNode m fuel id0 pr with ⟨ro, pr2⟩
      obtain ⟨n1, n2, n3, n4, n5, n6, n7⟩ := nodeSpec_all m hid fuel id0 pr
      have heqsnd : pr2 = pr ++ optIds ro := by
        rw [hb] at n1
        simpa using n1
      cases ro with
      | none =>
        have hpr2 : pr2 = pr := by simpa [optIds] using heqsnd
        subst hpr2
        have heq : buildTreeGo m fuel (allChildIds m) ((id0, info0) :: rest) pr2
            = buildTreeGo m fuel (allChildIds m) rest pr2 := by
          simp only [buildTreeGo]
          rw [if_pos hg, hb]
        obtain ⟨i1, i2, i3, i4, i5, i6, i7⟩ := ih pr2
        refine ⟨?_, ?_, ?_, ?_, ?_, ?_, ?_⟩
        · rw [heq]; exact i1
        · rw [heq]; exact i2
        · rw [heq]; exact i3
        · rw [heq]; exact i4
        · intro hf id info hmem hkey hac
          rw [heq]
          rcases List.mem_cons.mp hmem with heqm | hmem2
          · exfalso
            have hide : id = id0 := congrArg Prod.fst heqm
            rcases n6 hf (hide ▸ hkey) with ⟨n, hn⟩
            rw [hb] at hn
            cases hn
          · exact i5 hf id info hmem2 hkey hac
        · rw [heq]; exact i6
        · intro hf hnd id info hmem hkey hac hpr
          rw [heq]
          rcases List.mem_cons.mp hmem with heqm | hmem2
          · exfalso
            have hide : id = id0 := congrArg Prod.fst heqm
            rcases n6 hf (hide ▸ hkey) with ⟨n, hn⟩
            rw [hb] at hn
            cases hn
          · exact i7 hf (by simpa using (List.nodup_cons.mp (by simpa using hnd)).2)
              id info hmem2 hkey hac hpr
      | some n =>
        have hpr2 : pr2 = pr ++ n.ids := by simpa [optIds] using heqsnd
        have hsome : (buildDependencyNode m fuel id0 pr).1 = some n := by
          rw [hb]
        have heq1 : (buildTreeGo m fuel (allChildIds m) ((id0, info0) :: rest) pr).1
            = n :: (buildTreeGo m fuel (allChildIds m) rest pr2).1 := by
          simp only [buildTreeGo]
          rw [if_pos hg, hb]
        have heq2 : (buildTreeGo m fuel (allChildIds m) ((id0, info0) :: rest) pr).2
            = (buildTreeGo m fuel (allChildIds m) rest pr2).2 := by
          simp only [buildTreeGo]
          rw [if_pos hg, hb]
        obtain ⟨i1, i2, i3, i4, i5, i6, i7⟩ := ih pr2
        have htop := n2 n hsome
        have hforest : forestIds
            ((buildTreeGo m fuel (allChildIds m) ((id0, info0) :: rest) pr).1)
            = n.ids ++ forestIds
              ((buildTreeGo m fuel (allChildIds m) rest pr2).1) := by
          rw [heq1]
          simp [forestIds]
        have hprsub : ∀ x ∈ pr, x ∈ pr2 := by
          intro x hx
          rw [hpr2]
          exact List.mem_append_left _ hx
        have hnfresh := n5 hg.2
        have hnnodup : n.ids.Nodup := by
          have := hnfresh.1
          rw [hsome] at this
          exact this
        have hnout : ∀ x ∈ n.ids, x ∉ pr := by
          intro x hx
          exact hnfresh.2 x (by rw [hsome]; exact hx)
        refine ⟨?_, ?_, ?_, ?_, ?_, ?_, ?_⟩
        · rw [heq2, hforest, i1, hpr2]
          simp
        · intro t ht
          rw [heq1] at ht
          rcases List.mem_cons.mp ht with rfl | ht2
          · rw [htop.1]
            exact hg.1
          · exact i2 t ht2
        · rw [hforest]
          intro x hx
          rcases List.mem_append.mp hx with h | h
          · exact hnout x h
          · intro habs
            exact (i3 x h) (hprsub x habs)
        · intro hnd
          rw [heq2]
          refine i4 ?_
          rw [hpr2]
          exact List.Nodup.append hnd hnnodup (fun x hx1 hx2 => (hnout x hx2) hx1)
        · intro hf id info hmem hkey hac
          rw [heq2]
          rcases List.mem_cons.mp hmem with heqm | hmem2
          · have hide : id = id0 := congrArg Prod.fst heqm
            rw [i1]
            refine List.mem_append_left _ ?_
            rw [hpr2]
            refine List.mem_append_right _ ?_
            rcases htop.2 with ⟨t, ht⟩
            rw [ht, hide]
            exact List.mem_cons_self _ _
          · exact i5 hf id info hmem2 hkey hac
        · intro hf x hx hxpr comp2 hc cid hcid hcidk
          rw [heq2] at hx ⊢
          by_cases hxpr2 : x ∈ pr2
          · have hxin : x ∈ n.ids := by
              rw [hpr2] at hxpr2
              rcases List.mem_append.mp hxpr2 with h | h
              · exact absurd h hxpr
              · exact h
            have hukm : ukm m pr ≤ fuel := le_trans (ukm_le m pr) hf
            have h9 := n7 hg.2 hukm x (by rw [hsome]; exact hxin) comp2 hc
              cid hcid hcidk
            rw [hb] at h9
            rw [i1]
            refine List.mem_append_left _ ?_
            simpa using h9
          · exact i6 hf x hx hxpr2 comp2 hc cid hcid hcidk
        · intro hf hnd id info hmem hkey hac hpr
          have hnd2 : (id0 :: rest.map Prod.fst).Nodup := by simpa using hnd
          rcases List.mem_cons.mp hmem with heqm | hmem2
          · have hide : id = id0 := congrArg Prod.fst heqm
            rw [heq1]
            unfold topIds
            rw [List.map_cons]
            rw [hide, ← htop.1]
            exact List.mem_cons_self _ _
          · have hne : id ≠ id0 := by
              intro habs
              have : id ∈ rest.map Prod.fst :=
                List.mem_map.mpr ⟨(id, info), hmem2, rfl⟩
              rw [habs] at this
              exact (List.nodup_cons.mp hnd2).1 this
            have hpr2out : id ∉ pr2 := by
              rw [hpr2]
              intro habs
              rcases List.mem_append.mp habs with h | h
              · exact hpr h
              · rcases n4 id (by rw [hsome]; exact h) with h2 | h2
                · exact hne h2
                · exact hac h2
            have := i7 hf (List.nodup_cons.mp hnd2).2 id info hmem2 hkey hac
              hpr2out
            rw [heq1]
            unfold topIds at this ⊢
            rw [List.map_cons]
            exact List.mem_cons_of_mem _ this
    · have heq : buildTreeGo m fuel (allChildIds m) ((id0, info0) :: rest) pr
          = buildTreeGo m fuel (allChildIds m) rest pr := by
        simp only [buildTreeGo]
        rw [if_neg hg]
      obtain ⟨i1, i2, i3, i4, i5, i6, i7⟩ := ih pr
      refine ⟨?_, ?_, ?_, ?_, ?_, ?_, ?_⟩
      · rw [heq]; exact i1
      · rw [heq]; exact i2
      · rw [heq]; exact i3
      · rw [heq]; exact i4
      · intro hf id info hmem hkey hac
        rw [heq]
        rcases List.mem_cons.mp hmem with heqm | hmem2
        · have hide : id = id0 := congrArg Prod.fst heqm
          rw [i1]
          refine List.mem_append_left _ ?_
          rcases not_and_or.mp hg with h | h
          · exact absurd (hide ▸ hac) (fun hh => hh (not_not.mp h))
          · rw [hide]
            exact not_not.mp h
        · exact i5 hf id info hmem2 hkey hac
      · rw [heq]; exact i6
      · intro hf hnd id info hmem hkey hac hpr
        rw [heq]
        rcases List.mem_cons.mp hmem with heqm | hmem2
        · exfalso
          have hide : id = id0 := congrArg Prod.fst heqm
          rcases not_and_or.mp hg with h | h
          · exact (hide ▸ hac) (not_not.mp h)
          · exact (hide ▸ hpr) (not_not.mp h)
        · exact i7 hf (by
            have hnd2 : (id0 :: rest.map Prod.fst).Nodup := by simpa using hnd
            exact (List.nodup_cons.mp hnd2).2) id info hmem2 hkey hac hpr

theorem analyzeSelection_tree_eq (d : Doc) (opts : FilterOptions) (fuel : Nat)
    (sel : List SNode) :
    (analyzeSelection d opts fuel sel).dependencyTree
      = buildDependencyTree (analyzeSelection d opts fuel sel).components fuel := by
  unfold analyzeSelection
  by_cases h : sel.length = 0
  · simp only [h, if_true]
    rfl
  · simp only [h, if_false]

/-- Claim C7: in the dependency forest returned by `analyzeSelection` — under
the host-guaranteed acyclicity of the component-dependency relation,
expressed by a rank function decreasing from each entry to its in-map
children, and with fuel at least the size of the map — a component is a
forest root iff no entry's `children` references its id, every component of
the map appears in exactly one position of the forest, and no root is
referenced in any entry's `children`. -/
theorem analyzeSelection_forest_exactly_once (d : Doc) (opts : FilterOptions)
    (fuel : Nat) (sel : List SNode) (rank : String → Nat)
    (hrank : ∀ p ∈ (analyzeSelection d opts fuel sel).components,
      ∀ cid ∈ p.2.children,
        cid ∈ (analyzeSelection d opts fuel sel).components.map Prod.fst →
          rank cid < rank p.1)
    (hfuel : (analyzeSelection d opts fuel sel).components.length ≤ fuel) :
    (∀ p ∈ (analyzeSelection d opts fuel sel).components,
      (forestIds (analyzeSelection d opts fuel sel).dependencyTree).count p.1
        = 1) ∧
      (∀ p ∈ (analyzeSelection d opts fuel sel).components,
        (p.1 ∈ topIds (analyzeSelection d opts fuel sel).dependencyTree ↔
          p.1 ∉ allChildIds (analyzeSelection d opts fuel sel).components)) ∧
      (∀ x ∈ topIds (analyzeSelection d opts fuel sel).dependencyTree,
        x ∉ allChildIds (analyzeSelection d opts fuel sel).components) := by
  obtain ⟨hk, hOk⟩ := analyzeSelection_mapInv d opts fuel sel
  have hid : ∀ p ∈ (analyzeSelection d opts fuel sel).components, p.2.id = p.1 :=
    fun p hp => (hOk p hp).1
  rw [analyzeSelection_tree_eq d opts fuel sel] at *
  revert hrank hfuel hk hOk hid
  generalize (analyzeSelection d opts fuel sel).components = m
  intro hrank hfuel hk hOk hid
  have htreedef : buildDependencyTree m fuel
      = (buildTreeGo m fuel (allChildIds m) m []).1 := rfl
  obtain ⟨t1, t2, t3, t4, t5, t6, t7⟩ := treeSpec_all m hid fuel m []
  have hfin : (buildTreeGo m fuel (allChildIds m) m []).2
      = forestIds (buildTreeGo m fuel (allChildIds m) m []).1 := by
    simpa using t1
  -- the rank measure used for the completeness argument
  have hmu : ∀ y k, y ∈ m.map Prod.fst → rank k < rank y →
      ((m.map Prod.fst).toFinset.filter (fun z => rank y < rank z)).card <
        ((m.map Prod.fst).toFinset.filter (fun z => rank k < rank z)).card := by
    intro y k hy hr
    have hsub : ((m.map Prod.fst).toFinset.filter (fun z => rank y < rank z))
        ⊆ ((m.map Prod.fst).toFinset.filter (fun z => rank k < rank z)) := by
      intro z hz
      rw [Finset.mem_filter] at hz ⊢
      exact ⟨hz.1, lt_trans hr hz.2⟩
    apply Finset.card_lt_card
    rw [Finset.ssubset_iff_of_subset hsub]
    refine ⟨y, Finset.mem_filter.mpr ⟨List.mem_toFinset.mpr hy, hr⟩, ?_⟩
    intro habs
    exact lt_irrefl (rank y) (Finset.mem_filter.mp habs).2
  have hcomplete : ∀ k, k ∈ m.map Prod.fst →
      k ∈ (buildTreeGo m fuel (allChildIds m) m []).2 := by
    have main : ∀ n k, k ∈ m.map Prod.fst →
        ((m.map Prod.fst).toFinset.filter (fun z => rank k < rank z)).card = n →
        k ∈ (buildTreeGo m fuel (allChildIds m) m []).2 := by
      intro n
      induction n using Nat.strong_induction_on with
      | _ n ihn =>
        intro k hkk hcard
        have hfpos : 0 < fuel := by
          rcases List.mem_map.mp hkk with ⟨p, hp, _⟩
          have : 0 < m.length := List.length_pos.mpr (fun hnil => by
            rw [hnil] at hp; cases hp)
          omega
        by_cases hac : k ∈ allChildIds m
        · obtain ⟨cl, hclmem, hkcl⟩ := List.mem_flatten.mp hac
          obtain ⟨p, hp, hpcl⟩ := List.mem_map.mp hclmem
          have hkch : k ∈ p.2.children := by rw [hpcl]; exact hkcl
          have hrk := hrank p hp k hkch hkk
          have hp1k : p.1 ∈ m.map Prod.fst := List.mem_map_of_mem Prod.fst hp
          have hyfin : p.1 ∈ (buildTreeGo m fuel (allChildIds m) m []).2 :=
            ihn _ (hcard ▸ hmu p.1 k hp1k hrk) p.1 hp1k rfl
          have hget : mapGet m p.1 = some p.2 := by
            refine mapGet_of_mem_nodup hk ?_
            rcases p with ⟨a, b⟩
            exact hp
          exact t6 hfuel p.1 hyfin (by simp) p.2 hget k hkch hkk
        · rcases List.mem_map.mp hkk with ⟨p, hp, hpk⟩
          rcases p with ⟨a, b⟩
          have hp2 : (k, b) ∈ m := by
            have ha : a = k := hpk
            rw [← ha]
            exact hp
          exact t5 hfpos k b hp2 hkk hac
    exact fun k hkk => main _ k hkk rfl
  have hnodup : (forestIds (buildTreeGo m fuel (allChildIds m) m []).1).Nodup := by
    rw [← hfin]
    exact t4 List.nodup_nil
  rw [htreedef]
  refine ⟨?_, ?_, ?_⟩
  · intro p hp
    have hmem : p.1 ∈ forestIds (buildTreeGo m fuel (allChildIds m) m []).1 := by
      rw [← hfin]
      exact hcomplete p.1 (List.mem_map_of_mem Prod.fst hp)
    exact List.count_eq_one_of_mem hnodup hmem
  · intro p hp
    constructor
    · intro htops
      rcases List.mem_map.mp htops with ⟨t, ht, htid⟩
      rw [← htid]
      exact t2 t ht
    · intro hac
      have hfpos : 0 < fuel := by
        have : 0 < m.length := List.length_pos.mpr (fun hnil => by
          rw [hnil] at hp; cases hp)
        omega
      rcases p with ⟨a, b⟩
      exact t7 hfpos hk a b hp (List.mem_map_of_mem Prod.fst hp) hac
        (by simp)
  · intro x hx
    rcases List.mem_map.mp hx with ⟨t, ht, htid⟩
    rw [← htid]
    exact t2 t ht

/-- Witness for C7 on the concrete Button/Icon document, with the rank
function putting Button above Icon. -/
theorem analyzeSelection_forest_exactly_once_witness :
    decide (∀ p ∈ (analyzeSelection docC2 defaultFilterOptions 12
        [btnC2]).components,
      (forestIds (analyzeSelection docC2 defaultFilterOptions 12
        [btnC2]).dependencyTree).count p.1 = 1) = true ∧
      decide (∀ p ∈ (analyzeSelection docC2 defaultFilterOptions 12
          [btnC2]).components,
        (p.1 ∈ topIds (analyzeSelection docC2 defaultFilterOptions 12
            [btnC2]).dependencyTree ↔
          p.1 ∉ allChildIds (analyzeSelection docC2 defaultFilterOptions 12
            [btnC2]).components)) = true ∧
      decide (∀ x ∈ topIds (analyzeSelection docC2 defaultFilterOptions 12
          [btnC2]).dependencyTree,
        x ∉ allChildIds (analyzeSelection docC2 defaultFilterOptions 12
          [btnC2]).components) = true := by
  have h := analyzeSelection_forest_exactly_once docC2 defaultFilterOptions 12
    [btnC2] (fun s => if s = "b" then 1 else 0) (by decide) (by decide)
  exact ⟨decide_eq_true h.1, decide_eq_true h.2.1, decide_eq_true h.2.2⟩

end Transfer
